import Mathlib

/-!
# Verification of the similarity-checker clustering engine

This file gives a shallow embedding, in Lean 4, of the core of the
`similarity-checker` repository:

* the pairwise string-similarity metrics of `src/similarity.rs`
  (`calculate_similarity` and the five algorithms, including the
  `strsim` crate's `levenshtein` and `jaro_winkler` that the code calls),
* the filename-only clustering engine of `src-tauri/src/grouper.rs`
  (`group_files`),
* the content-aware three-tier grouping of `src-tauri/src/file_info.rs`
  (`calculate_name_similarity`, `group_similar_files`, `calculate_hash`).

Rust `f64` similarity scores are embedded as exact rationals (`ℚ`):
all score arithmetic in the source (`1 - d / max_len`, weighted sums,
means) is modelled with exact rational arithmetic.  Rust `u8`/`usize`/
`u64` are embedded as `ℕ`.  Rust `String`s are Lean `String`s; byte
lengths (`str::len`) are modelled by summing `Char.utf8Size`, and
`chars()` by `String.toList`.  Unicode case folding and the Unicode
alphanumeric table are abstracted by `Char.toLower` / `Char.isAlphanum`
applied characterwise (the claims under study do not depend on
non-ASCII case-folding special cases).  File-system reads and SHA-256
hashing (`fs::read` + `Sha256` in `FileInfo::calculate_hash`) are
external I/O and are modelled by an explicit oracle parameter.
-/

/-! ## String helpers -/

/-- Byte length of a character list, as in Rust `str::len` (UTF-8 bytes). -/
def byteLen (cs : List Char) : ℕ := (cs.map Char.utf8Size).sum

/-- Characterwise lower-casing, modelling Rust `str::to_lowercase`. -/
def strLower (s : String) : String := ⟨s.toList.map Char.toLower⟩

/-- `haystack` contains `needle` as a contiguous substring
(Rust `str::contains` on UTF-8 strings, at the character level). -/
def listContains (haystack needle : List Char) : Bool :=
  haystack.tails.any (fun t => needle.isPrefixOf t)

/-! ## The `strsim` crate primitives used by `similarity.rs`

`strsim::levenshtein` computes the textbook unit-cost edit distance by
dynamic programming; it is embedded as Mathlib's `levenshtein` with the
all-ones cost structure `Levenshtein.defaultCost`, whose defining
recurrence `levenshtein_cons_cons` is exactly the DP cell formula
`min(del + 1, ins + 1, diag + indicator)` used by the crate.

`strsim::jaro_winkler` (version 0.11) is embedded structurally below:
the greedy matching loop with its `search_range` window and flag
vectors, the transposition count over flagged characters, and the
Winkler prefix bonus (prefix capped at 4, applied when the Jaro score
exceeds 0.7). -/

/-- The unit-cost edit distance of `strsim::levenshtein`
(and of the DP matrix in `file_info.rs`). -/
def levDist (xs ys : List Char) : ℕ :=
  levenshtein Levenshtein.defaultCost xs ys

/-- First index `j < maxB` with `minB ≤ j`, `b[j] = c` and `j` not yet
consumed: the inner loop of `generic_jaro`'s matching phase
(`for (j, b_elem) in b.iter().enumerate().take(max_bound)` with the
`min_bound <= j && a_elem == b_elem && !b_flags[j]` test and `break`). -/
def findMatch (b : List Char) (used : Finset ℕ) (minB maxB : ℕ) (c : Char) : Option ℕ :=
  (List.range maxB).find? (fun j =>
    decide (minB ≤ j) && decide (b.getD j default = c) && decide (j ∉ used))

/-- The outer matching loop of `generic_jaro`: for each `(i, a_elem)` of
`a` in order, consume the first eligible position of `b` in the window
`[i - sr, i + sr]`.  The `b_flags` vector is modelled as the `Finset`
of consumed indices; the produced list of matched `(i, j)` pairs
carries the same information as the `a_flags`/`b_flags` vectors
(`a`-side flags ascending with their partners). -/
def matchLoop (b : List Char) (sr : ℕ) : List (ℕ × Char) → Finset ℕ → List (ℕ × ℕ)
  | [], _ => []
  | (i, c) :: rest, used =>
    let minB := if i > sr then i - sr else 0
    let maxB := min b.length (i + sr + 1)
    match findMatch b used minB maxB c with
    | some j => (i, j) :: matchLoop b sr rest (insert j used)
    | none => matchLoop b sr rest used

/-- Matched index pairs of `generic_jaro` on `a`, `b` with search range `sr`. -/
def jaroPairs (a b : List Char) (sr : ℕ) : List (ℕ × ℕ) :=
  matchLoop b sr a.enum ∅

/-- Number of positions where two equal-length character sequences
disagree (the transposition scan of `generic_jaro`, before halving). -/
def countMismatch : List Char → List Char → ℕ
  | x :: xs, y :: ys => (if x = y then 0 else 1) + countMismatch xs ys
  | _, _ => 0

/-- The halved transposition count of `generic_jaro`: the flagged
characters of `a` in index order against the flagged characters of `b`
in index order. -/
def jaroTrans (a b : List Char) (pairs : List (ℕ × ℕ)) : ℕ :=
  countMismatch (pairs.map fun p => a.getD p.1 default)
      (((pairs.map Prod.snd).insertionSort (· ≤ ·)).map fun j => b.getD j default) / 2

/-- `strsim`'s `generic_jaro` similarity: `search_range` is
`max(len)/2` saturating-minus `1`; `matches` is the number of matched
pairs; if no character matches the score is `0`, otherwise it is the
standard Jaro formula with the halved transposition count. -/
def jaroSim (a b : List Char) : ℚ :=
  if a.length = 0 ∧ b.length = 0 then 1
  else if a.length = 0 ∨ b.length = 0 then 0
  else if (jaroPairs a b (max a.length b.length / 2 - 1)).length = 0 then 0
  else
    (((jaroPairs a b (max a.length b.length / 2 - 1)).length : ℚ) / a.length +
      ((jaroPairs a b (max a.length b.length / 2 - 1)).length : ℚ) / b.length +
      (((jaroPairs a b (max a.length b.length / 2 - 1)).length -
        jaroTrans a b (jaroPairs a b (max a.length b.length / 2 - 1)) : ℕ) : ℚ) /
        ((jaroPairs a b (max a.length b.length / 2 - 1)).length : ℚ)) / 3

/-- Length of the common prefix of `a.take 4` and `b`
(`a.iter().take(4).zip(b.iter()).take_while(eq).count()`). -/
def commonPrefixLen : List Char → List Char → ℕ
  | x :: xs, y :: ys => if x = y then 1 + commonPrefixLen xs ys else 0
  | _, _ => 0

/-- `strsim`'s `jaro_winkler`: the Jaro score with Winkler's prefix
bonus (prefix capped at 4) when the Jaro score exceeds 0.7. -/
def jaroWinkler (a b : List Char) : ℚ :=
  if jaroSim a b > 7/10 then
    jaroSim a b + 1/10 * (commonPrefixLen (a.take 4) b : ℚ) * (1 - jaroSim a b)
  else jaroSim a b

/-! ## `src/similarity.rs` -/

/-- The `Algorithm` selector of `cli.rs`. -/
inductive Algorithm
  | Levenshtein
  | Jaro
  | Token
  | Substring
  | Auto
deriving Repr, DecidableEq

/-- `levenshtein_similarity`: normalized edit distance
`1 - distance / max(s1.len(), s2.len())` (byte lengths), `1.0` when both
strings are empty. -/
def levenshtein_similarity (s1 s2 : String) : ℚ :=
  let d := levDist s1.toList s2.toList
  let maxLen := max (byteLen s1.toList) (byteLen s2.toList)
  if maxLen = 0 then 1 else 1 - (d : ℚ) / maxLen

/-- `jaro_similarity`: delegates to `strsim::jaro_winkler`. -/
def jaro_similarity (s1 s2 : String) : ℚ :=
  jaroWinkler s1.toList s2.toList

/-- `tokenize`: maximal runs of alphanumeric characters; every
non-alphanumeric character is a separator and is discarded. -/
def tokenize (s : String) : List String :=
  let r := s.toList.foldl
    (fun (acc : List String × List Char) ch =>
      if ch.isAlphanum then (acc.1, acc.2 ++ [ch])
      else if acc.2 = [] then acc
      else (acc.1 ++ [⟨acc.2⟩], []))
    ([], [])
  if r.2 = [] then r.1 else r.1 ++ [⟨r.2⟩]

/-- `token_similarity`: Jaccard index of the token sets (the
`HashSet` intersection and union counts become `Finset` cardinalities
of the deduplicated token lists). -/
def token_similarity (s1 s2 : String) : ℚ :=
  if tokenize s1 = [] ∧ tokenize s2 = [] then 1
  else if tokenize s1 = [] ∨ tokenize s2 = [] then 0
  else if ((tokenize s1).toFinset ∪ (tokenize s2).toFinset).card = 0 then 1
  else (((tokenize s1).toFinset ∩ (tokenize s2).toFinset).card : ℚ) /
    (((tokenize s1).toFinset ∪ (tokenize s2).toFinset).card : ℚ)

/-- Everything before the last `.` of the string (`s.rfind('.')` and the
slice `s[..dot_pos]`); the whole string when there is no dot. -/
def dropExtension (cs : List Char) : List Char :=
  if '.' ∈ cs then ((cs.reverse.dropWhile (· ≠ '.')).tail).reverse else cs

/-- `normalize_for_comparison`: drop the file extension, keep only
alphanumeric characters, lower-case. -/
def normalize_for_comparison (s : String) : List Char :=
  ((dropExtension s.toList).filter Char.isAlphanum).map Char.toLower

/-- `substring_similarity`: after normalization, order the two strings
by (byte) length; if the longer contains the shorter, the score is the
byte-length ratio, else `0`. -/
def substring_similarity (s1 s2 : String) : ℚ :=
  if normalize_for_comparison s1 = [] ∧ normalize_for_comparison s2 = [] then 1
  else if normalize_for_comparison s1 = [] ∨ normalize_for_comparison s2 = [] then 0
  else if byteLen (normalize_for_comparison s1) ≤ byteLen (normalize_for_comparison s2) then
    if listContains (normalize_for_comparison s2) (normalize_for_comparison s1) then
      (byteLen (normalize_for_comparison s1) : ℚ) /
        (byteLen (normalize_for_comparison s2) : ℚ)
    else 0
  else
    if listContains (normalize_for_comparison s1) (normalize_for_comparison s2) then
      (byteLen (normalize_for_comparison s2) : ℚ) /
        (byteLen (normalize_for_comparison s1) : ℚ)
    else 0

/-- `auto_similarity`: weighted combination of Levenshtein,
Jaro–Winkler and token scores; token-heavy weights when either string
contains `_`, `-` or a space. -/
def auto_similarity (s1 s2 : String) : ℚ :=
  if s1.toList.contains '_' || s1.toList.contains '-' ||
      s1.toList.contains ' ' || s2.toList.contains '_' || s2.toList.contains '-' ||
      s2.toList.contains ' ' then
    token_similarity s1 s2 * (6/10) + jaro_similarity s1 s2 * (3/10) +
      levenshtein_similarity s1 s2 * (1/10)
  else
    jaro_similarity s1 s2 * (5/10) + levenshtein_similarity s1 s2 * (3/10) +
      token_similarity s1 s2 * (2/10)

/-- `calculate_similarity`: lower-case both inputs unless
`case_sensitive`, then dispatch on the algorithm. -/
def calculate_similarity (s1 s2 : String) (algorithm : Algorithm)
    (case_sensitive : Bool) : ℚ :=
  let t1 := if case_sensitive then s1 else strLower s1
  let t2 := if case_sensitive then s2 else strLower s2
  match algorithm with
  | .Levenshtein => levenshtein_similarity t1 t2
  | .Jaro => jaro_similarity t1 t2
  | .Token => token_similarity t1 t2
  | .Substring => substring_similarity t1 t2
  | .Auto => auto_similarity t1 t2


/-- Round to the nearest integer, ties to even — the tie-breaking rule
of IEEE-754 round-to-nearest. -/
def rne (q : ℚ) : ℤ :=
  if q - ⌊q⌋ < 1/2 then ⌊q⌋
  else if 1/2 < q - ⌊q⌋ then ⌊q⌋ + 1
  else if ⌊q⌋ % 2 = 0 then ⌊q⌋ else ⌊q⌋ + 1

/-- Rounding of a positive rational to 53 significant bits: the result
of every IEEE-754 binary64 (`f64`) arithmetic operation in the normal
range is the rounding of its exact value by this function.  (Every
value rounded in this development is positive and far from the
subnormal and overflow thresholds.) -/
def rnd53 (q : ℚ) : ℚ :=
  if q ≤ 0 then q
  else (rne (q * 2 ^ ((52:ℤ) - Int.log 2 q)) : ℚ) * 2 ^ (Int.log 2 q - 52)

/-- The exact values of the `f64` literals `0.6`, `0.3`, `0.1`, `0.5`
and `0.2` of `auto_similarity` (none of `0.6`, `0.3`, `0.1`, `0.2` is
representable in binary64; the compiled constants are these dyadic
rationals). -/
def c06 : ℚ := 5404319552844595 / 2 ^ 53

def c03 : ℚ := 5404319552844595 / 2 ^ 54

def c01 : ℚ := 3602879701896397 / 2 ^ 55

def c05 : ℚ := 1 / 2

def c02 : ℚ := 3602879701896397 / 2 ^ 54

/-- The `has_delimiters` test of `auto_similarity`. -/
def hasDelimPair (s1 s2 : String) : Bool :=
  s1.toList.contains '_' || s1.toList.contains '-' || s1.toList.contains ' ' ||
  s2.toList.contains '_' || s2.toList.contains '-' || s2.toList.contains ' '

/-- Binary64 refinement of `auto_similarity`'s weighted combination:
the same expression the source evaluates, with the weight literals
replaced by their exact binary64 values and the IEEE rounding `rnd53`
applied to every product and every sum, in the source's evaluation
order `(x*w1 + y*w2) + z*w3`.  The component scores are taken from the
exact model; where this refinement is applied below they equal `1.0`
exactly — which binary64 represents exactly and the component
computations produce exactly — so the refinement coincides with the
full `f64` evaluation there. -/
def auto_similarity_f64 (s1 s2 : String) : ℚ :=
  if hasDelimPair s1 s2 then
    rnd53 (rnd53 (rnd53 (token_similarity s1 s2 * c06) +
      rnd53 (jaro_similarity s1 s2 * c03)) +
      rnd53 (levenshtein_similarity s1 s2 * c01))
  else
    rnd53 (rnd53 (rnd53 (jaro_similarity s1 s2 * c05) +
      rnd53 (levenshtein_similarity s1 s2 * c03)) +
      rnd53 (token_similarity s1 s2 * c02))

/-! ## `src-tauri/src/grouper.rs`

The clustering engine.  The `HashSet<usize>` of processed indices is a
`Finset ℕ`; groups are built as lists of indices into `files` and
converted to `Group` records (with `id = groups.len() + 1` at push
time, i.e. position + 1) before the final stable sort by descending
similarity (`Vec::sort_by` is stable; `List.mergeSort` is stable).
The engine is written generically in the pairwise score function
(`groupFilesWith`); `group_files` instantiates it with
`calculate_similarity` at the given algorithm and case flag, exactly as
the source does. -/

namespace Grouper

/-- A group of similar files (`grouper.rs`'s `Group`). -/
structure Group where
  id : ℕ
  files : List String
  similarity : ℚ
deriving Repr, DecidableEq

/-- Result summary (`grouper.rs`'s `Summary`). -/
structure Summary where
  total_files : ℕ
  groups_found : ℕ
  ungrouped_files : ℕ
  threshold_used : ℚ
deriving Repr, DecidableEq

/-- Full clustering result (`grouper.rs`'s `GroupingResult`). -/
structure GroupingResult where
  groups : List Group
  ungrouped : List String
  summary : Summary
deriving Repr, DecidableEq

/-- Accumulator of the anchor loop: emitted groups (index lists with
their mean similarity) and the processed-index set. -/
structure AnchorState where
  igroups : List (List ℕ × ℚ)
  processed : Finset ℕ
deriving DecidableEq

/-- The seed scan for anchor `i`: every unprocessed `j` with
`i < j < n` whose similarity to `i` reaches the threshold joins the
candidate group (which starts as `vec![i]`), and each such score is
recorded. -/
def seedScan (simI : ℕ → ℕ → ℚ) (t : ℚ) (n : ℕ) (processed : Finset ℕ)
    (i : ℕ) : List ℕ × List ℚ :=
  let js := (List.range' (i + 1) (n - (i + 1))).filter
    (fun j => j ∉ processed ∧ t ≤ simI i j)
  (i :: js, js.map (simI i))

/-- One member's scan in the expansion pass: append every index
`k < n` that is neither processed nor already in the candidate group
and whose similarity to the member `g` reaches the threshold, recording
the scores (the inner `for k in 0..files.len()` loop). -/
def memberScan (simI : ℕ → ℕ → ℚ) (t : ℚ) (n : ℕ) (processed : Finset ℕ)
    (g : ℕ) (acc : List ℕ × List ℚ) : List ℕ × List ℚ :=
  let ks := (List.range n).filter
    (fun k => k ∉ processed ∧ k ∉ acc.1 ∧ t ≤ simI g k)
  (acc.1 ++ ks, acc.2 ++ ks.map (simI g))

/-- One full pass of the expansion loop: scan every member of
`current` in order against all remaining indices. -/
def passOnce (simI : ℕ → ℕ → ℚ) (t : ℚ) (n : ℕ) (processed : Finset ℕ)
    (current : List ℕ) (acc : List ℕ × List ℚ) : List ℕ × List ℚ :=
  current.foldl (fun acc g => memberScan simI t n processed g acc) acc

/-- The `while added_any` expansion loop.  Each iteration performs one
full pass; the loop stops when a pass adds no new member.  The fuel
argument bounds the iteration count; `expandLoop` is always called with
fuel `n`, which suffices because every continuing pass strictly grows
the (duplicate-free, `< n`) member list. -/
def expandLoop (simI : ℕ → ℕ → ℚ) (t : ℚ) (n : ℕ) (processed : Finset ℕ) :
    ℕ → List ℕ → List ℕ × List ℚ → List ℕ × List ℚ
  | 0, _, acc => acc
  | fuel + 1, current, acc =>
    let acc' := passOnce simI t n processed current acc
    if acc'.1.length = acc.1.length then acc'
    else expandLoop simI t n processed fuel acc'.1 acc'

/-- The closed candidate group around anchor `i` (seed scan followed by
the transitive expansion loop), together with all recorded scores. -/
def anchorClosure (simI : ℕ → ℕ → ℚ) (t : ℚ) (n : ℕ) (processed : Finset ℕ)
    (i : ℕ) : List ℕ × List ℚ :=
  let s := seedScan simI t n processed i
  expandLoop simI t n processed n s.1 s

/-- The recorded mean similarity: arithmetic mean of the recorded
scores, or `1.0` when no score was recorded. -/
def meanSim (sims : List ℚ) : ℚ :=
  if sims = [] then 1 else sims.sum / sims.length

/-- Process one anchor index: skip it if already processed; otherwise
build the closed candidate group and emit it (marking all members
processed) exactly when it reaches `min_group_size`. -/
def processAnchor (simI : ℕ → ℕ → ℚ) (t : ℚ) (n minSize : ℕ)
    (st : AnchorState) (i : ℕ) : AnchorState :=
  if i ∈ st.processed then st
  else
    let c := anchorClosure simI t n st.processed i
    if minSize ≤ c.1.length then
      { igroups := st.igroups ++ [(c.1, meanSim c.2)],
        processed := st.processed ∪ c.1.toFinset }
    else st

/-- The grouping engine, generic in the pairwise score function. -/
def groupFilesWith (simS : String → String → ℚ) (files : List String)
    (t : ℚ) (minSize : ℕ) : GroupingResult :=
  let n := files.length
  let simI := fun i j => simS (files.getD i "") (files.getD j "")
  let final := (List.range n).foldl (processAnchor simI t n minSize) ⟨[], ∅⟩
  let groupsPre := final.igroups.enum.map (fun p =>
    { id := p.1 + 1, files := p.2.1.map (fun idx => files.getD idx ""),
      similarity := p.2.2 : Group })
  let groups := groupsPre.insertionSort (fun a b => b.similarity ≤ a.similarity)
  let ungrouped := ((List.range n).filter (fun k => k ∉ final.processed)).map
    (fun k => files.getD k "")
  { groups := groups
    ungrouped := ungrouped
    summary :=
      { total_files := n
        groups_found := groupsPre.length
        ungrouped_files := ungrouped.length
        threshold_used := t } }

/-- `group_files`: the public engine entry point.  The `u8` threshold
percentage becomes the rational threshold `threshold / 100`. -/
def group_files (files : List String) (threshold : ℕ) (algorithm : Algorithm)
    (case_sensitive : Bool) (min_group_size : ℕ) : GroupingResult :=
  groupFilesWith (fun a b => calculate_similarity a b algorithm case_sensitive)
    files ((threshold : ℚ) / 100) min_group_size

end Grouper

/-! ## `src-tauri/src/file_info.rs`

Content-aware three-tier grouping.  `FileInfo::calculate_hash` reads
the file from disk and hashes it with SHA-256; that I/O step is
modelled by an oracle `readHash : String → Except String String`
mapping a path to its content hash (or an I/O error), memoized through
the `hash` field exactly as in the source.  Indexing `files[j]` (always
in bounds in the source) is modelled with `getD`. -/

/-- `file_info.rs`'s `FileInfo` record. -/
structure FileInfo where
  name : String
  size : ℕ
  file_type : String
  last_modified : ℕ
  path : String
  hash : Option String
deriving Repr, DecidableEq

instance : Inhabited FileInfo := ⟨⟨"", 0, "", 0, "", none⟩⟩

/-- `file_info.rs`'s `SimilarityType`. -/
inductive SimilarityType
  | Identical
  | Name
  | Size
  | Content
deriving Repr, DecidableEq

/-- `file_info.rs`'s `SimilarityGroup`. -/
structure SimilarityGroup where
  id : String
  files : List FileInfo
  similarity_type : SimilarityType
  similarity_score : ℚ
deriving Repr, DecidableEq

/-- The normalization of `calculate_name_similarity`: lower-case, then
keep only alphanumeric characters (no extension stripping). -/
def normalizeName (s : String) : List Char :=
  (s.toList.map Char.toLower).filter Char.isAlphanum

/-- `calculate_name_similarity`: `1.0` on equal normalized names,
otherwise `1 - d / max(len1, len2)` where `d` is the unit-cost edit
distance of the normalized names and the lengths are character counts
(the DP matrix of the source computes exactly this edit distance). -/
def calculate_name_similarity (name1 name2 : String) : ℚ :=
  let n1 := normalizeName name1
  let n2 := normalizeName name2
  if n1 = n2 then 1
  else
    let len1 := n1.length
    let len2 := n2.length
    if len1 = 0 ∧ len2 = 0 then 1
    else if len1 = 0 ∨ len2 = 0 then 0
    else
      let distance := levDist n1 n2
      let max_length := max len1 len2
      if max_length = 0 then 1 else 1 - (distance : ℚ) / max_length

/-- `FileInfo::calculate_hash`: return the memoized hash if present,
otherwise read and hash the file via the oracle (recording the result). -/
def calculate_hash (readHash : String → Except String String)
    (f : FileInfo) : Except String FileInfo :=
  match f.hash with
  | some _ => .ok f
  | none => (readHash f.path).map fun h => { f with hash := some h }

/-- Which tier (if any) matches the candidate pair, with the pair's
name-similarity score where the tier uses it: the three-tier test of
the inner loop of `group_similar_files`, in its exact order (hashes
present and equal; else equal sizes and name similarity above `0.8`;
else name similarity above `0.9`). -/
inductive TierMatch
  | identical
  | content (s : ℚ)
  | nameOnly (s : ℚ)
deriving Repr, DecidableEq

/-- Tier-1 test: both hashes present and equal. -/
def hashEq (x y : FileInfo) : Bool :=
  match x.hash, y.hash with
  | some h1, some h2 => h1 = h2
  | _, _ => false

/-- The pair test of `group_similar_files`'s inner loop. -/
def tierOf (x y : FileInfo) : Option TierMatch :=
  if hashEq x y then some .identical
  else if x.size = y.size ∧ calculate_name_similarity x.name y.name > 8/10 then
    some (.content (calculate_name_similarity x.name y.name))
  else if calculate_name_similarity x.name y.name > 9/10 then
    some (.nameOnly (calculate_name_similarity x.name y.name))
  else none

/-- State of the inner (`j`) loop of `group_similar_files`. -/
structure ScanState where
  similar : List FileInfo
  processed : Finset ℕ
  simType : SimilarityType
  simScore : ℚ
deriving DecidableEq

/-- One step of the inner loop: absorb `files[j]` according to the tier
that matches it (if any).  A tier-1 match keeps the current tier tag
and score; tier-2 and tier-3 matches overwrite the tag and lower the
score to the minimum seen so far. -/
def scanStep (current : FileInfo) (files : List FileInfo)
    (st : ScanState) (j : ℕ) : ScanState :=
  if j ∈ st.processed then st
  else
    let compare := files.getD j default
    match tierOf current compare with
    | some .identical =>
      { st with similar := st.similar ++ [compare], processed := insert j st.processed }
    | some (.content s) =>
      { similar := st.similar ++ [compare], processed := insert j st.processed,
        simType := .Content, simScore := min st.simScore s }
    | some (.nameOnly s) =>
      { similar := st.similar ++ [compare], processed := insert j st.processed,
        simType := .Name, simScore := min st.simScore s }
    | none => st

/-- State of the outer (anchor) loop of `group_similar_files`. -/
structure TierGroupState where
  groups : List SimilarityGroup
  processed : Finset ℕ
deriving DecidableEq

/-- Initial inner-loop state for anchor `i`: the group seeded with the
anchor (marked processed), tier `Identical`, score `1.0`. -/
def initScan (current : FileInfo) (processed : Finset ℕ) (i : ℕ) : ScanState :=
  ⟨[current], insert i processed, .Identical, 1⟩

/-- One anchor iteration of `group_similar_files`: scan all later
unprocessed files against the anchor, then emit the cluster exactly
when it has more than one member. -/
def anchorStep (files : List FileInfo) (st : TierGroupState) (i : ℕ) :
    TierGroupState :=
  if i ∈ st.processed then st
  else
    let current := files.getD i default
    let s := (List.range' (i + 1) (files.length - (i + 1))).foldl
      (scanStep current files) (initScan current st.processed i)
    if 1 < s.similar.length then
      { groups := st.groups ++
          [⟨"group-" ++ toString st.groups.length, s.similar, s.simType, s.simScore⟩],
        processed := s.processed }
    else { st with processed := s.processed }

/-- The infallible part of `group_similar_files`, run after all hashes
have resolved: the anchor loop followed by the stable sort by
descending score. -/
def groupHashed (files : List FileInfo) : List SimilarityGroup :=
  let final := (List.range files.length).foldl (anchorStep files) ⟨[], ∅⟩
  final.groups.insertionSort (fun a b => b.similarity_score ≤ a.similarity_score)

/-- `group_similar_files`: hash every file (the `?` operator makes any
single failure abort the whole call with that error), then group and
sort. -/
def group_similar_files (readHash : String → Except String String)
    (files : List FileInfo) : Except String (List SimilarityGroup) :=
  (files.mapM (calculate_hash readHash)).map groupHashed

/-! ## Basic facts about the edit distance -/

theorem levDist_nil_left (ys : List Char) : levDist [] ys = ys.length := by
  induction ys with
  | nil => simp [levDist]
  | cons y ys ih =>
    simp only [levDist, levenshtein_nil_cons, Levenshtein.defaultCost_insert,
      List.length_cons] at ih ⊢
    omega

theorem levDist_nil_right (xs : List Char) : levDist xs [] = xs.length := by
  induction xs with
  | nil => simp [levDist]
  | cons x xs ih =>
    simp only [levDist, levenshtein_cons_nil, Levenshtein.defaultCost_delete,
      List.length_cons] at ih ⊢
    omega

theorem levDist_cons_cons (x : Char) (xs : List Char) (y : Char) (ys : List Char) :
    levDist (x :: xs) (y :: ys) =
      min (1 + levDist xs (y :: ys))
        (min (1 + levDist (x :: xs) ys)
          ((if x = y then 0 else 1) + levDist xs ys)) := by
  simp only [levDist, levenshtein_cons_cons, Levenshtein.defaultCost_delete,
    Levenshtein.defaultCost_insert, Levenshtein.defaultCost_substitute]

theorem levDist_self (xs : List Char) : levDist xs xs = 0 := by
  induction xs with
  | nil => simp [levDist]
  | cons x xs ih => rw [levDist_cons_cons]; simp [ih]

theorem levDist_comm (xs ys : List Char) : levDist xs ys = levDist ys xs := by
  induction xs generalizing ys with
  | nil => rw [levDist_nil_left, levDist_nil_right]
  | cons x xs ihx =>
    induction ys with
    | nil => rw [levDist_nil_left, levDist_nil_right]
    | cons y ys ihy =>
      rw [levDist_cons_cons, levDist_cons_cons, ihx (y :: ys), ihx ys, ihy]
      have hsub : (if x = y then (0:ℕ) else 1) = (if y = x then (0:ℕ) else 1) := by
        by_cases h : x = y
        · simp [h]
        · have h2 : ¬ y = x := fun hyx => h hyx.symm
          simp [h, h2]
      rw [hsub]
      omega

theorem levDist_eq_zero_iff (xs ys : List Char) : levDist xs ys = 0 ↔ xs = ys := by
  induction xs generalizing ys with
  | nil =>
    rw [levDist_nil_left]
    constructor
    · intro h; exact (List.length_eq_zero.mp h).symm
    · intro h; simp [← h]
  | cons x xs ih =>
    cases ys with
    | nil => rw [levDist_nil_right]; simp
    | cons y ys =>
      rw [levDist_cons_cons]
      constructor
      · intro h
        have h3 : (if x = y then (0:ℕ) else 1) + levDist xs ys = 0 := by omega
        by_cases hxy : x = y
        · rw [if_pos hxy, zero_add] at h3
          rw [hxy, (ih ys).mp h3]
        · simp [hxy] at h3
      · intro h
        cases h
        simp [levDist_self]

theorem levDist_le_max (xs ys : List Char) :
    levDist xs ys ≤ max xs.length ys.length := by
  induction xs generalizing ys with
  | nil => rw [levDist_nil_left]; omega
  | cons x xs ih =>
    cases ys with
    | nil => rw [levDist_nil_right]; omega
    | cons y ys =>
      rw [levDist_cons_cons]
      have h := ih ys
      have hsub : (if x = y then (0:ℕ) else 1) ≤ 1 := by split <;> omega
      simp only [List.length_cons]
      omega

theorem one_le_utf8Size (c : Char) : 1 ≤ c.utf8Size := by
  have := Char.utf8Size_pos c
  omega

theorem length_le_byteLen (cs : List Char) : cs.length ≤ byteLen cs := by
  induction cs with
  | nil => simp [byteLen]
  | cons c cs ih =>
    simp only [byteLen, List.map_cons, List.sum_cons, List.length_cons] at ih ⊢
    have := one_le_utf8Size c
    omega

theorem byteLen_eq_zero_iff (cs : List Char) : byteLen cs = 0 ↔ cs = [] := by
  cases cs with
  | nil => simp [byteLen]
  | cons c cs =>
    simp only [byteLen, List.map_cons, List.sum_cons]
    have := one_le_utf8Size c
    constructor
    · intro h; omega
    · intro h; simp at h

/-! ## Claim C10: the normalized-name metric of the tier system -/

theorem levDist_pos_of_ne {xs ys : List Char} (h : xs ≠ ys) : 1 ≤ levDist xs ys := by
  rcases Nat.eq_zero_or_pos (levDist xs ys) with h0 | h1
  · exact absurd ((levDist_eq_zero_iff xs ys).mp h0) h
  · exact h1

/-- **C10.** `calculate_name_similarity` always returns a value in
`[0, 1]`, and it returns exactly `1` if and only if the two names are
equal after normalization (lower-casing and removing every
non-alphanumeric character, with no extension stripping).  In
particular two names differing only in case, spaces or punctuation
(anywhere, including the extension) normalize identically and score
`1`, which exceeds both the tier-2 (`> 0.8`) and tier-3 (`> 0.9`)
thresholds. -/
theorem name_similarity_range_and_eq_one_iff (a b : String) :
    0 ≤ calculate_name_similarity a b ∧ calculate_name_similarity a b ≤ 1 ∧
      (calculate_name_similarity a b = 1 ↔ normalizeName a = normalizeName b) := by
  unfold calculate_name_similarity
  by_cases heq : normalizeName a = normalizeName b
  · simp [heq]
  · rw [if_neg heq]
    by_cases h00 : (normalizeName a).length = 0 ∧ (normalizeName b).length = 0
    · exfalso
      exact heq ((List.length_eq_zero.mp h00.1).trans (List.length_eq_zero.mp h00.2).symm)
    · rw [if_neg h00]
      by_cases h0 : (normalizeName a).length = 0 ∨ (normalizeName b).length = 0
      · rw [if_pos h0]
        refine ⟨le_refl 0, by norm_num, ?_⟩
        constructor
        · intro h; norm_num at h
        · intro h; exact absurd h heq
      · rw [if_neg h0]
        push_neg at h0
        have hmax : 0 < max (normalizeName a).length (normalizeName b).length := by omega
        rw [if_neg (by omega : ¬ max (normalizeName a).length (normalizeName b).length = 0)]
        have hmaxQ : (0 : ℚ) < (max (normalizeName a).length (normalizeName b).length : ℚ) := by
          exact_mod_cast hmax
        have hd1 : 1 ≤ levDist (normalizeName a) (normalizeName b) := levDist_pos_of_ne heq
        have hdmax : levDist (normalizeName a) (normalizeName b) ≤
            max (normalizeName a).length (normalizeName b).length :=
          levDist_le_max _ _
        have hfrac0 : (0 : ℚ) <
            (levDist (normalizeName a) (normalizeName b) : ℚ) /
              (max (normalizeName a).length (normalizeName b).length : ℚ) := by
          apply div_pos _ hmaxQ
          exact_mod_cast hd1
        have hfrac1 : (levDist (normalizeName a) (normalizeName b) : ℚ) /
            (max (normalizeName a).length (normalizeName b).length : ℚ) ≤ 1 := by
          rw [div_le_one hmaxQ]
          exact_mod_cast hdmax
        rw [Nat.cast_max]
        refine ⟨by linarith, by linarith, ?_⟩
        constructor
        · intro h; exfalso; linarith
        · intro h; exact absurd h heq

/-! ## Structural lemmas about the filename-only clustering engine -/

namespace Grouper

variable {simI : ℕ → ℕ → ℚ} {t : ℚ} {n : ℕ} {P : Finset ℕ}

theorem memberScan_fst (g : ℕ) (acc : List ℕ × List ℚ) :
    (memberScan simI t n P g acc).1 =
      acc.1 ++ (List.range n).filter
        (fun k => k ∉ P ∧ k ∉ acc.1 ∧ t ≤ simI g k) := rfl

theorem memberScan_sublist (g : ℕ) (acc : List ℕ × List ℚ) :
    ∃ l, (memberScan simI t n P g acc).1 = acc.1 ++ l ∧
      ∀ k ∈ l, k < n ∧ k ∉ P ∧ k ∉ acc.1 ∧ t ≤ simI g k := by
  refine ⟨_, memberScan_fst g acc, ?_⟩
  intro k hk
  have h1 := List.of_mem_filter hk
  have h2 := List.mem_range.mp (List.mem_of_mem_filter hk)
  simp only [decide_eq_true_eq] at h1
  exact ⟨h2, h1.1, h1.2.1, h1.2.2⟩

theorem memberScan_nodup (g : ℕ) (acc : List ℕ × List ℚ) (h : acc.1.Nodup) :
    (memberScan simI t n P g acc).1.Nodup := by
  rw [memberScan_fst]
  refine List.Nodup.append h (List.Nodup.filter _ (List.nodup_range n)) ?_
  intro k hk1 hk2
  have := List.of_mem_filter hk2
  simp only [decide_eq_true_eq] at this
  exact this.2.1 hk1

theorem memberScan_eq_self_iff (g : ℕ) (acc : List ℕ × List ℚ) :
    (memberScan simI t n P g acc).1 = acc.1 ↔
      ∀ k, k < n → k ∉ P → k ∉ acc.1 → simI g k < t := by
  rw [memberScan_fst]
  constructor
  · intro h k hk hP hacc
    have hnil : (List.range n).filter
        (fun k => k ∉ P ∧ k ∉ acc.1 ∧ t ≤ simI g k) = [] := by
      have := congrArg List.length h
      simp only [List.length_append] at this
      have hlen : ((List.range n).filter
          (fun k => k ∉ P ∧ k ∉ acc.1 ∧ t ≤ simI g k)).length = 0 := by omega
      exact List.length_eq_zero.mp hlen
    by_contra hge
    push_neg at hge
    have hmem : k ∈ (List.range n).filter
        (fun k => k ∉ P ∧ k ∉ acc.1 ∧ t ≤ simI g k) := by
      apply List.mem_filter.mpr
      refine ⟨List.mem_range.mpr hk, ?_⟩
      simp only [decide_eq_true_eq]
      exact ⟨hP, hacc, hge⟩
    rw [hnil] at hmem
    exact absurd hmem (List.not_mem_nil k)
  · intro h
    have hnil : (List.range n).filter
        (fun k => k ∉ P ∧ k ∉ acc.1 ∧ t ≤ simI g k) = [] := by
      apply List.filter_eq_nil.mpr
      intro k hk
      simp only [decide_eq_true_eq, not_and, not_le]
      intro hP hacc
      exact h k (List.mem_range.mp hk) hP hacc
    rw [hnil, List.append_nil]

theorem passOnce_append (cur : List ℕ) (acc : List ℕ × List ℚ) :
    ∃ l, (passOnce simI t n P cur acc).1 = acc.1 ++ l := by
  induction cur generalizing acc with
  | nil => exact ⟨[], by simp [passOnce]⟩
  | cons g gs ih =>
    obtain ⟨l2, h2⟩ := ih (memberScan simI t n P g acc)
    rw [memberScan_fst] at h2
    exact ⟨_, by rw [passOnce, List.foldl_cons, ← passOnce, h2, List.append_assoc]⟩

theorem passOnce_mem (cur : List ℕ) (acc : List ℕ × List ℚ) :
    ∀ k ∈ (passOnce simI t n P cur acc).1,
      k ∈ acc.1 ∨ (k < n ∧ k ∉ P ∧ ∃ g ∈ cur, t ≤ simI g k) := by
  induction cur generalizing acc with
  | nil => intro k hk; exact Or.inl hk
  | cons g gs ih =>
    intro k hk
    rw [passOnce, List.foldl_cons, ← passOnce] at hk
    rcases ih (memberScan simI t n P g acc) k hk with h | h
    · rw [memberScan_fst] at h
      rcases List.mem_append.mp h with h | h
      · exact Or.inl h
      · have h1 := List.of_mem_filter h
        have h2 := List.mem_range.mp (List.mem_of_mem_filter h)
        simp only [decide_eq_true_eq] at h1
        exact Or.inr ⟨h2, h1.1, g, List.mem_cons_self g gs, h1.2.2⟩
    · exact Or.inr ⟨h.1, h.2.1, h.2.2.choose, List.mem_cons_of_mem g h.2.2.choose_spec.1,
        h.2.2.choose_spec.2⟩

theorem passOnce_nodup (cur : List ℕ) (acc : List ℕ × List ℚ) (h : acc.1.Nodup) :
    (passOnce simI t n P cur acc).1.Nodup := by
  induction cur generalizing acc with
  | nil => exact h
  | cons g gs ih =>
    rw [passOnce, List.foldl_cons, ← passOnce]
    exact ih _ (memberScan_nodup g acc h)

theorem passOnce_fix (cur : List ℕ) (acc : List ℕ × List ℚ)
    (h : (passOnce simI t n P cur acc).1 = acc.1) :
    ∀ g ∈ cur, ∀ k, k < n → k ∉ P → k ∉ acc.1 → simI g k < t := by
  induction cur generalizing acc with
  | nil => intro g hg; exact absurd hg (List.not_mem_nil g)
  | cons g gs ih =>
    rw [passOnce, List.foldl_cons, ← passOnce] at h
    have hms : (memberScan simI t n P g acc).1 = acc.1 := by
      obtain ⟨l1, h1, h1p⟩ := @memberScan_sublist simI t n P g acc
      obtain ⟨l2, h2⟩ := @passOnce_append simI t n P gs
        (memberScan simI t n P g acc)
      rw [h1] at h2
      rw [h2] at h
      have hlen := congrArg List.length h
      simp only [List.length_append] at hlen
      have hl1 : l1 = [] := List.length_eq_zero.mp (by omega)
      rw [h1, hl1, List.append_nil]
    intro g' hg' k hk hP hacc
    rcases List.mem_cons.mp hg' with h' | h'
    · subst h'
      exact (memberScan_eq_self_iff g' acc).mp hms k hk hP hacc
    · have hfix : (passOnce simI t n P gs (memberScan simI t n P g acc)).1 =
          (memberScan simI t n P g acc).1 := by rw [h, hms]
      have := ih (memberScan simI t n P g acc) hfix g' h' k hk hP
      rw [hms] at this
      exact this hacc

theorem length_le_of_nodup_lt (l : List ℕ) (hnd : l.Nodup) (hlt : ∀ k ∈ l, k < n) :
    l.length ≤ n := by
  have h1 : l.length = l.toFinset.card := (List.toFinset_card_of_nodup hnd).symm
  have h2 : l.toFinset ⊆ Finset.range n := by
    intro k hk
    exact Finset.mem_range.mpr (hlt k (List.mem_toFinset.mp hk))
  calc l.length = l.toFinset.card := h1
    _ ≤ (Finset.range n).card := Finset.card_le_card h2
    _ = n := Finset.card_range n

theorem expandLoop_mem (fuel : ℕ) (cur : List ℕ) (acc : List ℕ × List ℚ) :
    ∀ k ∈ (expandLoop simI t n P fuel cur acc).1,
      k ∈ acc.1 ∨ (k < n ∧ k ∉ P) := by
  induction fuel generalizing cur acc with
  | zero => intro k hk; exact Or.inl hk
  | succ fuel ih =>
    intro k hk
    rw [expandLoop] at hk
    by_cases hlen : (passOnce simI t n P cur acc).1.length = acc.1.length
    · rw [if_pos hlen] at hk
      rcases passOnce_mem cur acc k hk with h | h
      · exact Or.inl h
      · exact Or.inr ⟨h.1, h.2.1⟩
    · rw [if_neg hlen] at hk
      rcases ih _ _ k hk with h | h
      · rcases passOnce_mem cur acc k h with h' | h'
        · exact Or.inl h'
        · exact Or.inr ⟨h'.1, h'.2.1⟩
      · exact Or.inr h

theorem expandLoop_nodup (fuel : ℕ) (cur : List ℕ) (acc : List ℕ × List ℚ)
    (h : acc.1.Nodup) : (expandLoop simI t n P fuel cur acc).1.Nodup := by
  induction fuel generalizing cur acc with
  | zero => exact h
  | succ fuel ih =>
    rw [expandLoop]
    by_cases hlen : (passOnce simI t n P cur acc).1.length = acc.1.length
    · rw [if_pos hlen]; exact passOnce_nodup cur acc h
    · rw [if_neg hlen]; exact ih _ _ (passOnce_nodup cur acc h)

theorem expandLoop_extends (fuel : ℕ) (cur : List ℕ) (acc : List ℕ × List ℚ) :
    ∃ l, (expandLoop simI t n P fuel cur acc).1 = acc.1 ++ l := by
  induction fuel generalizing cur acc with
  | zero => exact ⟨[], by simp [expandLoop]⟩
  | succ fuel ih =>
    rw [expandLoop]
    by_cases hlen : (passOnce simI t n P cur acc).1.length = acc.1.length
    · rw [if_pos hlen]; exact passOnce_append cur acc
    · rw [if_neg hlen]
      obtain ⟨l1, h1⟩ := @passOnce_append simI t n P cur acc
      obtain ⟨l2, h2⟩ := ih (passOnce simI t n P cur acc).1 (passOnce simI t n P cur acc)
      exact ⟨l1 ++ l2, by rw [h2, h1, List.append_assoc]⟩

theorem expandLoop_fix (fuel : ℕ) (cur : List ℕ) (acc : List ℕ × List ℚ)
    (hfuel : n + 1 - acc.1.length ≤ fuel) (hcur : cur = acc.1)
    (hnd : acc.1.Nodup) (hlt : ∀ k ∈ acc.1, k < n) :
    ∀ g ∈ (expandLoop simI t n P fuel cur acc).1, ∀ k, k < n → k ∉ P →
      k ∉ (expandLoop simI t n P fuel cur acc).1 → simI g k < t := by
  induction fuel generalizing cur acc with
  | zero =>
    exfalso
    have : acc.1.length ≤ n := length_le_of_nodup_lt acc.1 hnd hlt
    omega
  | succ fuel ih =>
    rw [expandLoop]
    by_cases hlen : (passOnce simI t n P cur acc).1.length = acc.1.length
    · rw [if_pos hlen]
      obtain ⟨l, hl⟩ := @passOnce_append simI t n P cur acc
      have hnil : l = [] := by
        have hc := congrArg List.length hl
        simp only [List.length_append] at hc
        rw [hlen] at hc
        exact List.length_eq_zero.mp (by omega)
      have hfixp : (passOnce simI t n P cur acc).1 = acc.1 := by
        rw [hl, hnil, List.append_nil]
      intro g hg k hk hP hkacc
      rw [hfixp] at hg hkacc
      exact passOnce_fix cur acc hfixp g (by rw [hcur]; exact hg) k hk hP hkacc
    · rw [if_neg hlen]
      obtain ⟨l, hl⟩ := @passOnce_append simI t n P cur acc
      have hlpos : 1 ≤ l.length := by
        rcases Nat.eq_zero_or_pos l.length with h0 | h1
        · exfalso
          apply hlen
          rw [hl, List.length_eq_zero.mp h0, List.append_nil]
        · exact h1
      have hlen' : acc.1.length + l.length = (passOnce simI t n P cur acc).1.length := by
        rw [hl, List.length_append]
      have hnd' : (passOnce simI t n P cur acc).1.Nodup := passOnce_nodup cur acc hnd
      have hlt' : ∀ k ∈ (passOnce simI t n P cur acc).1, k < n := by
        intro k hk
        rcases passOnce_mem cur acc k hk with h | h
        · exact hlt k h
        · exact h.1
      exact ih (passOnce simI t n P cur acc).1 (passOnce simI t n P cur acc)
        (by omega) rfl hnd' hlt'

theorem seedScan_fst (i : ℕ) :
    (seedScan simI t n P i).1 =
      i :: (List.range' (i + 1) (n - (i + 1))).filter
        (fun j => j ∉ P ∧ t ≤ simI i j) := rfl

theorem seedScan_mem (i : ℕ) :
    ∀ k ∈ (seedScan simI t n P i).1,
      k = i ∨ (i < k ∧ k < n ∧ k ∉ P ∧ t ≤ simI i k) := by
  intro k hk
  rw [seedScan_fst] at hk
  rcases List.mem_cons.mp hk with h | h
  · exact Or.inl h
  · have h1 := List.of_mem_filter h
    have h2 := List.mem_range'_1.mp (List.mem_of_mem_filter h)
    simp only [decide_eq_true_eq] at h1
    exact Or.inr ⟨by omega, by omega, h1.1, h1.2⟩

theorem seedScan_nodup (i : ℕ) : (seedScan simI t n P i).1.Nodup := by
  rw [seedScan_fst]
  refine List.Nodup.cons ?_ (List.Nodup.filter _ (List.nodup_range' ..))
  intro hmem
  have h2 := List.mem_range'_1.mp (List.mem_of_mem_filter hmem)
  omega

theorem seedScan_anchor_mem (i : ℕ) : i ∈ (seedScan simI t n P i).1 := by
  rw [seedScan_fst]; exact List.mem_cons_self i _

theorem anchorClosure_mem (i : ℕ) (hi : i < n) (hiP : i ∉ P) :
    ∀ k ∈ (anchorClosure simI t n P i).1, k < n ∧ k ∉ P := by
  intro k hk
  rcases expandLoop_mem n (seedScan simI t n P i).1 (seedScan simI t n P i) k hk with h | h
  · rcases seedScan_mem i k h with h' | h'
    · subst h'; exact ⟨hi, hiP⟩
    · exact ⟨h'.2.1, h'.2.2.1⟩
  · exact h

theorem anchorClosure_anchor_mem (i : ℕ) : i ∈ (anchorClosure simI t n P i).1 := by
  obtain ⟨l, hl⟩ := @expandLoop_extends simI t n P n
    (seedScan simI t n P i).1 (seedScan simI t n P i)
  rw [anchorClosure, hl]
  exact List.mem_append.mpr (Or.inl (seedScan_anchor_mem i))

theorem anchorClosure_nodup (i : ℕ) : (anchorClosure simI t n P i).1.Nodup :=
  expandLoop_nodup n _ _ (seedScan_nodup i)

theorem anchorClosure_closed (st : AnchorState) (i : ℕ) (hi : i < n) :
    ∀ g ∈ (anchorClosure simI t n st.processed i).1, ∀ k, k < n →
      k ∉ st.processed → k ∉ (anchorClosure simI t n st.processed i).1 →
        simI g k < t := by
  have hseedlt : ∀ k ∈ (seedScan simI t n st.processed i).1, k < n := by
    intro k hk
    rcases seedScan_mem i k hk with h | h
    · subst h; exact hi
    · exact h.2.1
  have hfuel : n + 1 - (seedScan simI t n st.processed i).1.length ≤ n := by
    rw [seedScan_fst]
    simp only [List.length_cons]
    omega
  exact expandLoop_fix n _ _ hfuel rfl (seedScan_nodup i) hseedlt

theorem processAnchor_emit (minSize : ℕ) (st : AnchorState) (i : ℕ)
    (hP : i ∉ st.processed)
    (hmin : minSize ≤ (anchorClosure simI t n st.processed i).1.length) :
    processAnchor simI t n minSize st i =
      { igroups := st.igroups ++ [((anchorClosure simI t n st.processed i).1,
          meanSim (anchorClosure simI t n st.processed i).2)],
        processed := st.processed ∪
          (anchorClosure simI t n st.processed i).1.toFinset } := by
  rw [processAnchor, if_neg hP]
  simp only [anchorClosure] at hmin ⊢
  rw [if_pos hmin]

/-- **C2.**  Every candidate group is closed under the thresholded
similarity relation when the expansion loop finishes: no index `k < n`
that is unprocessed and outside the group has similarity `≥ t` to any
group member.  Moreover `processAnchor` emits exactly this closed group
(with its recorded mean score) whenever it reaches `min_group_size`, so
every emitted group is closed at the moment it is emitted. -/
theorem emitted_groups_are_closed (simI : ℕ → ℕ → ℚ) (t : ℚ) (n : ℕ)
    (minSize : ℕ) (st : AnchorState) (i : ℕ) (hi : i < n) :
    (∀ g ∈ (anchorClosure simI t n st.processed i).1, ∀ k, k < n →
      k ∉ st.processed → k ∉ (anchorClosure simI t n st.processed i).1 →
        simI g k < t) ∧
    (i ∉ st.processed →
      minSize ≤ (anchorClosure simI t n st.processed i).1.length →
      processAnchor simI t n minSize st i =
        { igroups := st.igroups ++ [((anchorClosure simI t n st.processed i).1,
            meanSim (anchorClosure simI t n st.processed i).2)],
          processed := st.processed ∪
            (anchorClosure simI t n st.processed i).1.toFinset }) := by
  exact ⟨anchorClosure_closed st i hi, processAnchor_emit minSize st i⟩

theorem processAnchor_skip (minSize : ℕ) (st : AnchorState) (i : ℕ)
    (h : i ∈ st.processed) : processAnchor simI t n minSize st i = st := by
  rw [processAnchor, if_pos h]

theorem processAnchor_small (minSize : ℕ) (st : AnchorState) (i : ℕ)
    (h : i ∉ st.processed)
    (hmin : (anchorClosure simI t n st.processed i).1.length < minSize) :
    processAnchor simI t n minSize st i = st := by
  rw [processAnchor, if_neg h]
  simp only [anchorClosure]
  rw [if_neg]
  simp only [anchorClosure] at hmin
  omega

end Grouper

/-- **C2 witness.** -/
theorem emitted_groups_are_closed_witness :
    (0 : ℕ) < 2 ∧
    (∀ g ∈ (Grouper.anchorClosure (fun _ _ => (1 : ℚ)) (1/2) 2 ∅ 0).1, ∀ k, k < 2 →
      k ∉ (∅ : Finset ℕ) → k ∉ (Grouper.anchorClosure (fun _ _ => (1 : ℚ)) (1/2) 2 ∅ 0).1 →
        (1 : ℚ) < 1/2) :=
  ⟨by norm_num,
    (Grouper.emitted_groups_are_closed (fun _ _ => (1 : ℚ)) (1/2) 2 2 ⟨[], ∅⟩ 0 (by norm_num)).1⟩

/-! ## Claim C3: the below-minimum-size policy -/

theorem levenshtein_similarity_eval (s1 s2 : String) (d m : ℕ)
    (hd : levDist s1.toList s2.toList = d)
    (hm : max (byteLen s1.toList) (byteLen s2.toList) = m) (hm0 : m ≠ 0) :
    levenshtein_similarity s1 s2 = 1 - (d : ℚ) / m := by
  unfold levenshtein_similarity
  rw [hd, hm, if_neg hm0]

theorem calcsim_lev_ci (s1 s2 : String) :
    calculate_similarity s1 s2 .Levenshtein false =
      levenshtein_similarity (strLower s1) (strLower s2) := rfl

set_option maxHeartbeats 1000000 in
set_option maxRecDepth 100000 in
/-- **C3.**  Whenever the closed candidate group around an anchor is
smaller than `min_group_size`, the anchor step leaves the state
untouched: no member is marked processed and no group is emitted, so
all members stay eligible for later anchors.  In particular on
`["file1.txt", "file2.txt", "different.doc"]` with Levenshtein,
threshold `70` and `min_group_size 3` the result has zero groups and
all three files ungrouped, in input order. -/
theorem below_min_size_no_processing_and_example :
    (∀ (simI : ℕ → ℕ → ℚ) (t : ℚ) (n minSize : ℕ)
        (st : Grouper.AnchorState) (i : ℕ),
        i ∉ st.processed →
        (Grouper.anchorClosure simI t n st.processed i).1.length < minSize →
        Grouper.processAnchor simI t n minSize st i = st) ∧
    Grouper.group_files ["file1.txt", "file2.txt", "different.doc"] 70
        .Levenshtein false 3 =
      { groups := [], ungrouped := ["file1.txt", "file2.txt", "different.doc"],
        summary := ⟨3, 0, 3, 7/10⟩ } := by
  constructor
  · intro simI t n minSize st i h hmin
    exact Grouper.processAnchor_small minSize st i h hmin
  · have s01 : calculate_similarity "file1.txt" "file2.txt" .Levenshtein false = 8/9 := by
      rw [calcsim_lev_ci,
        levenshtein_similarity_eval _ _ 1 9 (by decide) (by decide) (by norm_num)]
      norm_num
    have s10 : calculate_similarity "file2.txt" "file1.txt" .Levenshtein false = 8/9 := by
      rw [calcsim_lev_ci,
        levenshtein_similarity_eval _ _ 1 9 (by decide) (by decide) (by norm_num)]
      norm_num
    have s02 : calculate_similarity "file1.txt" "different.doc" .Levenshtein false = 3/13 := by
      rw [calcsim_lev_ci,
        levenshtein_similarity_eval _ _ 10 13 (by decide) (by decide) (by norm_num)]
      norm_num
    have s20 : calculate_similarity "different.doc" "file1.txt" .Levenshtein false = 3/13 := by
      rw [calcsim_lev_ci,
        levenshtein_similarity_eval _ _ 10 13 (by decide) (by decide) (by norm_num)]
      norm_num
    have s12 : calculate_similarity "file2.txt" "different.doc" .Levenshtein false = 3/13 := by
      rw [calcsim_lev_ci,
        levenshtein_similarity_eval _ _ 10 13 (by decide) (by decide) (by norm_num)]
      norm_num
    have s21 : calculate_similarity "different.doc" "file2.txt" .Levenshtein false = 3/13 := by
      rw [calcsim_lev_ci,
        levenshtein_similarity_eval _ _ 10 13 (by decide) (by decide) (by norm_num)]
      norm_num
    have hT : (((70:ℕ):ℚ)/100 ≤ 8/9) = True := eq_true (by norm_num)
    have hF : (((70:ℕ):ℚ)/100 ≤ 3/13) = False := eq_false (by norm_num)
    simp only [Grouper.group_files, Grouper.groupFilesWith, Grouper.processAnchor,
      Grouper.anchorClosure, Grouper.seedScan, Grouper.expandLoop, Grouper.passOnce,
      Grouper.memberScan, Grouper.meanSim,
      show List.range 3 = [0, 1, 2] from rfl,
      show List.range' 1 2 = [1, 2] from rfl,
      show List.range' 2 1 = [2] from rfl,
      show List.range' 3 0 = [] from rfl,
      List.foldl_cons, List.foldl_nil, List.filter_cons, List.filter_nil,
      List.getD_cons_zero, List.getD_cons_succ, List.length_cons, List.length_nil,
      s01, s10, s02, s20, s12, s21, hT, hF,
      Finset.not_mem_empty, List.mem_cons, List.mem_singleton, List.not_mem_nil]
    norm_num [s01, s10, s02, s20, s12, s21, Grouper.processAnchor,
      Grouper.anchorClosure, Grouper.seedScan, Grouper.expandLoop, Grouper.passOnce,
      Grouper.memberScan, Grouper.meanSim, List.insertionSort, List.getD,
      List.getElem?_cons_zero, List.getElem?_cons_succ, Option.getD_some]

set_option maxRecDepth 10000 in
/-- **C3 witness.** -/
theorem below_min_size_no_processing_witness :
    Grouper.processAnchor (fun _ _ => (0 : ℚ)) (1/2) 1 2 ⟨[], ∅⟩ 0 = ⟨[], ∅⟩ :=
  below_min_size_no_processing_and_example.1 (fun _ _ => (0 : ℚ)) (1/2) 1 2 ⟨[], ∅⟩ 0
    (by decide)
    (by
      have hF : ((1:ℚ)/2 ≤ 0) = False := eq_false (by norm_num)
      simp only [Grouper.anchorClosure, Grouper.seedScan, Grouper.expandLoop,
        Grouper.passOnce, Grouper.memberScan,
        show List.range' 1 0 = [] from rfl,
        show List.range 1 = [0] from rfl,
        List.foldl_cons, List.foldl_nil, List.filter_cons, List.filter_nil,
        Finset.not_mem_empty, List.mem_cons, List.mem_singleton, List.not_mem_nil, hF]
      norm_num)

/-! ## Claim C1: the partition invariant of the clustering engine -/

namespace Grouper

/-- All indices emitted into groups so far. -/
def emitted (st : AnchorState) : List ℕ := (st.igroups.map Prod.fst).flatten

/-- The partition invariant carried through the anchor loop. -/
def PartInv (n : ℕ) (st : AnchorState) : Prop :=
  (emitted st).Nodup ∧ (∀ k, k ∈ emitted st ↔ k ∈ st.processed) ∧
    (∀ k ∈ emitted st, k < n)

theorem processAnchor_partInv {minSize : ℕ} {st : AnchorState} {i : ℕ}
    (hi : i < n) (hinv : PartInv n st) :
    PartInv n (processAnchor simI t n minSize st i) := by
  obtain ⟨hnd, hiff, hlt⟩ := hinv
  by_cases hP : i ∈ st.processed
  · rw [processAnchor_skip minSize st i hP]
    exact ⟨hnd, hiff, hlt⟩
  · by_cases hmin : minSize ≤ (anchorClosure simI t n st.processed i).1.length
    · rw [processAnchor_emit minSize st i hP hmin]
      have hcmem := @anchorClosure_mem simI t n st.processed i hi hP
      have hcnd := @anchorClosure_nodup simI t n st.processed i
      refine ⟨?_, ?_, ?_⟩
      · simp only [PartInv, emitted, List.map_append, List.map_cons, List.map_nil,
          List.flatten_append, List.flatten_cons, List.flatten_nil, List.append_nil]
        refine List.Nodup.append hnd hcnd ?_
        intro k hk1 hk2
        exact (hcmem k hk2).2 ((hiff k).mp hk1)
      · intro k
        simp only [PartInv, emitted, List.map_append, List.map_cons, List.map_nil,
          List.flatten_append, List.flatten_cons, List.flatten_nil, List.append_nil,
          List.mem_append, Finset.mem_union, List.mem_toFinset]
        rw [← emitted, hiff k]
      · intro k hk
        simp only [PartInv, emitted, List.map_append, List.map_cons, List.map_nil,
          List.flatten_append, List.flatten_cons, List.flatten_nil, List.append_nil,
          List.mem_append] at hk
        rcases hk with h | h
        · exact hlt k h
        · exact (hcmem k h).1
    · rw [processAnchor_small minSize st i hP (by omega)]
      exact ⟨hnd, hiff, hlt⟩

theorem foldl_partInv {minSize : ℕ} (l : List ℕ) (st : AnchorState)
    (hl : ∀ i ∈ l, i < n) (hinv : PartInv n st) :
    PartInv n (l.foldl (processAnchor simI t n minSize) st) := by
  induction l generalizing st with
  | nil => exact hinv
  | cons i l ih =>
    rw [List.foldl_cons]
    exact ih _ (fun j hj => hl j (List.mem_cons_of_mem i hj))
      (processAnchor_partInv (hl i (List.mem_cons_self i l)) hinv)

theorem map_getD_range {α : Type} (l : List α) (d : α) :
    (List.range l.length).map (fun k => l.getD k d) = l := by
  induction l with
  | nil => simp
  | cons x xs ih =>
    rw [List.length_cons, List.range_succ_eq_map, List.map_cons, List.map_map]
    have h1 : (x :: xs).getD 0 d = x := rfl
    have h2 : List.map ((fun k => (x :: xs).getD k d) ∘ Nat.succ)
        (List.range xs.length) = xs := by
      have hc : ((fun k => (x :: xs).getD k d) ∘ Nat.succ) =
          (fun k => xs.getD k d) := by
        funext k
        rfl
      rw [hc]
      exact ih
    rw [h1, h2]

theorem groupFilesWith_perm (simS : String → String → ℚ) (files : List String)
    (t : ℚ) (minSize : ℕ) :
    (((groupFilesWith simS files t minSize).groups.map Group.files).flatten ++
      (groupFilesWith simS files t minSize).ungrouped).Perm files := by
  set n := files.length with hn
  set simI := fun i j => simS (files.getD i "") (files.getD j "") with hsimI
  set final := (List.range n).foldl (processAnchor simI t n minSize) ⟨[], ∅⟩
    with hfinal
  have hinv : PartInv n final :=
    foldl_partInv (List.range n) ⟨[], ∅⟩
      (fun i hi => List.mem_range.mp hi)
      ⟨by simp [emitted], by simp [emitted], by simp [emitted]⟩
  obtain ⟨hnd, hiff, hlt⟩ := hinv
  have hgroups : (groupFilesWith simS files t minSize).groups =
      (final.igroups.enum.map (fun p =>
        { id := p.1 + 1, files := p.2.1.map (fun idx => files.getD idx ""),
          similarity := p.2.2 : Group })).insertionSort
        (fun a b => b.similarity ≤ a.similarity) := rfl
  have hungrouped : (groupFilesWith simS files t minSize).ungrouped =
      ((List.range n).filter (fun k => k ∉ final.processed)).map
        (fun k => files.getD k "") := rfl
  have hperm1 : ((groupFilesWith simS files t minSize).groups.map Group.files).Perm
      ((final.igroups.enum.map (fun p =>
        { id := p.1 + 1, files := p.2.1.map (fun idx => files.getD idx ""),
          similarity := p.2.2 : Group })).map Group.files) := by
    rw [hgroups]
    exact (List.perm_insertionSort _ _).map _
  have heq2 : ((final.igroups.enum.map (fun p =>
      { id := p.1 + 1, files := p.2.1.map (fun idx => files.getD idx ""),
        similarity := p.2.2 : Group })).map Group.files) =
      final.igroups.map (fun g => g.1.map (fun idx => files.getD idx "")) := by
    rw [List.map_map]
    have hc : (Group.files ∘ fun p : ℕ × (List ℕ × ℚ) =>
        { id := p.1 + 1, files := p.2.1.map (fun idx => files.getD idx ""),
          similarity := p.2.2 : Group }) =
        (fun g : List ℕ × ℚ => g.1.map (fun idx => files.getD idx "")) ∘ Prod.snd := rfl
    rw [hc, ← List.map_map, List.enum_map_snd]
  have heq3 : (final.igroups.map
      (fun g => g.1.map (fun idx => files.getD idx ""))).flatten =
      (emitted final).map (fun idx => files.getD idx "") := by
    rw [emitted, List.map_flatten, List.map_map]
    rfl
  have hidx : ((emitted final) ++
      (List.range n).filter (fun k => k ∉ final.processed)).Perm (List.range n) := by
    have hfe : (List.range n).filter (fun k => k ∉ final.processed) =
        (List.range n).filter (fun k => !(decide (k ∈ emitted final))) := by
      apply List.filter_congr
      intro k _
      rw [← decide_not]
      exact decide_eq_decide.mpr (not_congr (hiff k).symm)
    have hperm2 : ((List.range n).filter (fun k => decide (k ∈ emitted final))).Perm
        (emitted final) := by
      apply List.perm_of_nodup_nodup_toFinset_eq
      · exact List.Nodup.filter _ (List.nodup_range n)
      · exact hnd
      · ext k
        simp only [List.mem_toFinset, List.mem_filter, List.mem_range,
          decide_eq_true_eq]
        constructor
        · intro h; exact h.2
        · intro h; exact ⟨hlt k h, h⟩
    rw [hfe]
    exact ((hperm2.symm).append_right _).trans (List.filter_append_perm _ _)
  have step1 : (((groupFilesWith simS files t minSize).groups.map
      Group.files).flatten).Perm
      ((emitted final).map (fun idx => files.getD idx "")) := by
    have h := hperm1.flatten
    rw [heq2, heq3] at h
    exact h
  have step2 : ((((groupFilesWith simS files t minSize).groups.map
      Group.files).flatten) ++
      (groupFilesWith simS files t minSize).ungrouped).Perm
      (((emitted final) ++
        (List.range n).filter (fun k => k ∉ final.processed)).map
          (fun k => files.getD k "")) := by
    rw [List.map_append, hungrouped]
    exact step1.append_right _
  refine step2.trans ((hidx.map _).trans ?_)
  rw [hn]
  exact (map_getD_range files "").symm ▸ List.Perm.refl _

end Grouper


/-- **C1.**  For every input list and every valid configuration
(threshold between 0 and 100, `min_group_size ≥ 2`), every input file
occurs exactly once across the output: the concatenation of all
emitted groups' file lists with the ungrouped list is a permutation of
the input list — nothing is lost, duplicated, or placed in two
groups. -/
theorem every_file_exactly_once (files : List String) (threshold : ℕ)
    (algorithm : Algorithm) (case_sensitive : Bool) (min_group_size : ℕ)
    (h1 : threshold ≤ 100) (h2 : 2 ≤ min_group_size) :
    (((Grouper.group_files files threshold algorithm case_sensitive
        min_group_size).groups.map Grouper.Group.files).flatten ++
      (Grouper.group_files files threshold algorithm case_sensitive
        min_group_size).ungrouped).Perm files :=
  Grouper.groupFilesWith_perm _ files _ min_group_size

/-- **C1 witness.** -/
theorem every_file_exactly_once_witness :
    (50 : ℕ) ≤ 100 ∧ (2 : ℕ) ≤ 2 ∧
    (((Grouper.group_files ["report_v1.pdf", "report_v2.pdf"] 50 .Token false
        2).groups.map Grouper.Group.files).flatten ++
      (Grouper.group_files ["report_v1.pdf", "report_v2.pdf"] 50 .Token false
        2).ungrouped).Perm ["report_v1.pdf", "report_v2.pdf"] :=
  ⟨by norm_num, by norm_num,
    every_file_exactly_once ["report_v1.pdf", "report_v2.pdf"] 50 .Token false 2
      (by norm_num) (by norm_num)⟩

/-! ## Claim C4: strict tier priority and identical-content pairs -/

/-- The tier decision together with the pair's score: tier 1 scores
`1.0`, tiers 2 and 3 score the normalized-name similarity. -/
def pairMatch (x y : FileInfo) : Option (SimilarityType × ℚ) :=
  match tierOf x y with
  | some .identical => some (.Identical, 1)
  | some (.content s) => some (.Content, s)
  | some (.nameOnly s) => some (.Name, s)
  | none => none

/-- **C4.**  The candidate-pair test evaluates the three tiers in
strict priority order and the first match wins: equal present hashes
give tier `Identical` with pair score `1`; otherwise equal sizes with
normalized-name similarity above `0.8` give tier `Content` with that
similarity as score; otherwise similarity above `0.9` gives tier
`Name`; otherwise the pair is unrelated.  Consequently two files with
identical content hashes are always grouped together with tier
`Identical` and score `1`, whatever their names. -/
theorem tier_priority_first_match_wins :
    (∀ x y : FileInfo,
      (hashEq x y = true → pairMatch x y = some (.Identical, 1)) ∧
      (hashEq x y = false → x.size = y.size →
        calculate_name_similarity x.name y.name > 8/10 →
        pairMatch x y = some (.Content, calculate_name_similarity x.name y.name)) ∧
      (hashEq x y = false →
        ¬(x.size = y.size ∧ calculate_name_similarity x.name y.name > 8/10) →
        calculate_name_similarity x.name y.name > 9/10 →
        pairMatch x y = some (.Name, calculate_name_similarity x.name y.name)) ∧
      (hashEq x y = false →
        ¬(x.size = y.size ∧ calculate_name_similarity x.name y.name > 8/10) →
        ¬(calculate_name_similarity x.name y.name > 9/10) →
        pairMatch x y = none)) ∧
    (∀ (readHash : String → Except String String) (x y : FileInfo) (h : String),
      x.hash = some h → y.hash = some h →
      group_similar_files readHash [x, y] =
        .ok [⟨"group-0", [x, y], .Identical, 1⟩]) := by
  constructor
  · intro x y
    refine ⟨?_, ?_, ?_, ?_⟩
    · intro h1
      rw [pairMatch, tierOf, if_pos h1]
    · intro h1 h2 h3
      rw [pairMatch, tierOf, if_neg (by simp [h1]), if_pos ⟨h2, h3⟩]
    · intro h1 h2 h3
      rw [pairMatch, tierOf, if_neg (by simp [h1]), if_neg h2, if_pos h3]
    · intro h1 h2 h3
      rw [pairMatch, tierOf, if_neg (by simp [h1]), if_neg h2, if_neg h3]
  · intro readHash x y h hx hy
    have hhx : calculate_hash readHash x = .ok x := by
      rw [calculate_hash, hx]
    have hhy : calculate_hash readHash y = .ok y := by
      rw [calculate_hash, hy]
    have hmap : [x, y].mapM (calculate_hash readHash) = .ok [x, y] := by
      rw [List.mapM_cons, List.mapM_cons, List.mapM_nil, hhx, hhy]
      rfl
    have heq : hashEq x y = true := by
      rw [hashEq, hx, hy]
      simp
    have ht : tierOf x y = some .identical := by rw [tierOf, if_pos heq]
    rw [group_similar_files, hmap]
    show Except.ok (groupHashed [x, y]) = _
    congr 1
    rw [groupHashed]
    simp only [List.length_cons, List.length_nil,
      show List.range 2 = [0, 1] from rfl, List.foldl_cons, List.foldl_nil]
    simp only [anchorStep, scanStep, initScan, ht,
      show (2 : ℕ) - (0 + 1) = 1 from rfl, show List.range' (0 + 1) 1 = [1] from rfl,
      List.foldl_cons, List.foldl_nil, List.getD_cons_zero, List.getD_cons_succ,
      Finset.not_mem_empty, if_false, Finset.mem_insert, Finset.mem_singleton,
      List.length_cons, List.length_nil]
    norm_num [List.insertionSort, List.orderedInsert]
    rfl

/-- **C4 witness.** -/
theorem tier_priority_first_match_wins_witness :
    group_similar_files (fun _ => .error "unused")
      [⟨"alpha", 1, "", 0, "p", some "h"⟩, ⟨"zq", 2, "", 0, "q", some "h"⟩] =
      .ok [⟨"group-0",
        [⟨"alpha", 1, "", 0, "p", some "h"⟩, ⟨"zq", 2, "", 0, "q", some "h"⟩],
        .Identical, 1⟩] :=
  tier_priority_first_match_wins.2 (fun _ => .error "unused") _ _ "h" rfl rfl

/-! ## Claim C5: the group's tier tag and score -/

theorem calculate_name_similarity_eval (a b : String) (d m : ℕ)
    (hne : normalizeName a ≠ normalizeName b)
    (hd : levDist (normalizeName a) (normalizeName b) = d)
    (hm : max (normalizeName a).length (normalizeName b).length = m)
    (h2 : ¬((normalizeName a).length = 0 ∨ (normalizeName b).length = 0))
    (hm0 : m ≠ 0) :
    calculate_name_similarity a b = 1 - (d : ℚ) / m := by
  unfold calculate_name_similarity
  rw [if_neg hne, if_neg (by push_neg at h2 ⊢; exact fun h => absurd h h2.1),
    if_neg h2, hd, hm, if_neg hm0]

/-- Anchor of the C5 scenario: same hash as `tierFileB`, name close to
`tierFileC`. -/
def tierFileA : FileInfo := ⟨"document1.txt", 100, "txt", 0, "a", some "h1"⟩

/-- Absorbed first, by the tier-1 (identical hash) rule. -/
def tierFileB : FileInfo := ⟨"zzz", 5, "", 0, "b", some "h1"⟩

/-- Absorbed second, by the tier-3 (name) rule. -/
def tierFileC : FileInfo := ⟨"document2.txt", 7, "txt", 0, "c", some "h2"⟩

set_option maxRecDepth 100000 in
/-- **C5 counterexample.**  The anchor's first successful match is the
tier-1 `Identical` match with `tierFileB`, yet the emitted group
carries tier `Name` (set by the later tier-3 match with `tierFileC`):
the tier tag is not fixed by the first successful match. -/
theorem tier_overwritten_by_later_match :
    pairMatch tierFileA tierFileB = some (.Identical, 1) ∧
    group_similar_files (fun _ => .error "unused")
      [tierFileA, tierFileB, tierFileC] =
      .ok [⟨"group-0", [tierFileA, tierFileB, tierFileC], .Name, 11/12⟩] ∧
    SimilarityType.Name ≠ SimilarityType.Identical := by
  have hsim : calculate_name_similarity "document1.txt" "document2.txt" = 11/12 := by
    rw [calculate_name_similarity_eval "document1.txt" "document2.txt" 1 12
      (by decide) (by decide) (by decide) (by decide) (by norm_num)]
    norm_num
  have ht1 : tierOf tierFileA tierFileB = some .identical := by
    rw [tierOf, if_pos (by decide)]
  have ht2 : tierOf tierFileA tierFileC = some (.nameOnly (11/12)) := by
    rw [tierOf, if_neg (by decide)]
    have hc2 : ¬(tierFileA.size = tierFileC.size ∧
        calculate_name_similarity tierFileA.name tierFileC.name > 8/10) := by
      rintro ⟨h, _⟩
      revert h
      decide
    rw [if_neg hc2]
    have hc3 : calculate_name_similarity tierFileA.name tierFileC.name > 9/10 := by
      show calculate_name_similarity "document1.txt" "document2.txt" > 9/10
      rw [hsim]
      norm_num
    rw [if_pos hc3]
    show some (TierMatch.nameOnly
        (calculate_name_similarity "document1.txt" "document2.txt")) =
      some (TierMatch.nameOnly (11/12))
    rw [hsim]
  refine ⟨by rw [pairMatch, ht1], ?_, by decide⟩
  have hmap : [tierFileA, tierFileB, tierFileC].mapM
      (calculate_hash (fun _ => .error "unused")) =
      .ok [tierFileA, tierFileB, tierFileC] := rfl
  have hmin : min (1 : ℚ) (11/12) = 11/12 := by norm_num
  rw [group_similar_files, hmap]
  show Except.ok (groupHashed [tierFileA, tierFileB, tierFileC]) = _
  congr 1
  rw [groupHashed]
  simp only [List.length_cons, List.length_nil,
    show List.range 3 = [0, 1, 2] from rfl, List.foldl_cons, List.foldl_nil]
  simp only [anchorStep, scanStep, initScan, ht1, ht2,
    show (3 : ℕ) - (0 + 1) = 2 from rfl,
    show List.range' (0 + 1) 2 = [1, 2] from rfl,
    List.foldl_cons, List.foldl_nil, List.getD_cons_zero, List.getD_cons_succ,
    Finset.not_mem_empty, if_false, Finset.mem_insert, Finset.mem_singleton,
    List.length_cons, List.length_nil, hmin]
  norm_num [List.insertionSort, List.orderedInsert]
  rfl

/-- How a tier match updates the running tier tag: tier-1 keeps it,
tier-2 sets `Content`, tier-3 sets `Name`. -/
def tierTypeStep (ty : SimilarityType) : TierMatch → SimilarityType
  | .identical => ty
  | .content _ => .Content
  | .nameOnly _ => .Name

/-- The pair score of a tier match: `1` for tier-1, the name
similarity for tiers 2 and 3. -/
def tierPairScore : TierMatch → ℚ
  | .identical => 1
  | .content s => s
  | .nameOnly s => s

/-- The matches the inner loop makes, with their tiers: every `j` of
the scan list that is not already processed and matches some tier
(the tier test does not depend on the evolving state). -/
def scanMatches (current : FileInfo) (files : List FileInfo) (P : Finset ℕ)
    (js : List ℕ) : List (ℕ × TierMatch) :=
  js.filterMap (fun j =>
    if j ∈ P then none
    else (tierOf current (files.getD j default)).map (fun m => (j, m)))

theorem scanMatches_insert (current : FileInfo) (files : List FileInfo)
    (P : Finset ℕ) (j : ℕ) (js : List ℕ) (hj : j ∉ js) :
    scanMatches current files (insert j P) js = scanMatches current files P js := by
  unfold scanMatches
  apply List.filterMap_congr
  intro a ha
  have haj : a ≠ j := fun h => hj (h ▸ ha)
  by_cases hP : a ∈ P
  · rw [if_pos hP, if_pos (Finset.mem_insert_of_mem hP)]
  · rw [if_neg hP, if_neg (by
      intro h
      rcases Finset.mem_insert.mp h with h | h
      · exact haj h
      · exact hP h)]

/-- **C5 amended.**  For the scan of one anchor: the final tier tag is
produced by folding the tier updates in match order over the matches'
tiers — i.e. it equals the tier of the *last* tier-2 or tier-3 match
(`Identical` if there is none) — and the final score is the minimum of
the initial score and all matched pair scores. -/
theorem tier_is_last_overwrite_score_is_min (current : FileInfo)
    (files : List FileInfo) (js : List ℕ) (st : ScanState)
    (hnd : js.Nodup) (hsc : st.simScore ≤ 1) :
    (js.foldl (scanStep current files) st).simType =
      (scanMatches current files st.processed js).foldl
        (fun ty m => tierTypeStep ty m.2) st.simType ∧
    (js.foldl (scanStep current files) st).simScore =
      (scanMatches current files st.processed js).foldl
        (fun sc m => min sc (tierPairScore m.2)) st.simScore := by
  induction js generalizing st with
  | nil => exact ⟨rfl, rfl⟩
  | cons j js ih =>
    have hjs : js.Nodup := hnd.of_cons
    have hjj : j ∉ js := (List.nodup_cons.mp hnd).1
    have hP2 : ∀ (hP : j ∈ st.processed), (j ∈ st.processed) = True :=
      fun hP => eq_true hP
    rw [List.foldl_cons]
    by_cases hP : j ∈ st.processed
    · have hstep : scanStep current files st j = st := by
        simp only [scanStep, eq_true hP, if_true]
      have hsm : scanMatches current files st.processed (j :: js) =
          scanMatches current files st.processed js := by
        unfold scanMatches
        rw [List.filterMap_cons, if_pos hP]
      rw [hstep, hsm]
      exact ih st hjs hsc
    · rcases htier : tierOf current (files.getD j default) with _ | m
      · have hstep : scanStep current files st j = st := by
          simp only [scanStep, eq_false hP, if_false, htier]
        have hsm : scanMatches current files st.processed (j :: js) =
            scanMatches current files st.processed js := by
          unfold scanMatches
          rw [List.filterMap_cons, if_neg hP, htier]
          rfl
        rw [hstep, hsm]
        exact ih st hjs hsc
      · have hsm : scanMatches current files st.processed (j :: js) =
            (j, m) :: scanMatches current files st.processed js := by
          unfold scanMatches
          rw [List.filterMap_cons, if_neg hP, htier]
          rfl
        have hty : (scanStep current files st j).simType = tierTypeStep st.simType m := by
          simp only [scanStep, eq_false hP, if_false, htier]
          cases m <;> rfl
        have hsc2 : (scanStep current files st j).simScore =
            min st.simScore (tierPairScore m) := by
          simp only [scanStep, eq_false hP, if_false, htier]
          cases m with
          | identical =>
            show st.simScore = min st.simScore 1
            rw [min_eq_left hsc]
          | content s => rfl
          | nameOnly s => rfl
        have hpr : (scanStep current files st j).processed = insert j st.processed := by
          simp only [scanStep, eq_false hP, if_false, htier]
          cases m <;> rfl
        have hle : (scanStep current files st j).simScore ≤ 1 := by
          rw [hsc2]
          exact le_trans (min_le_left _ _) hsc
        have hih := ih (scanStep current files st j) hjs hle
        rw [hpr, scanMatches_insert current files st.processed j js hjj] at hih
        rw [hsm, List.foldl_cons, List.foldl_cons]
        constructor
        · rw [hih.1, hty]
        · rw [hih.2, hsc2]

/-- **C5 witness.** -/
theorem tier_is_last_overwrite_score_is_min_witness :
    ([1].Nodup) ∧ ((1 : ℚ) ≤ 1) ∧
    (([1].foldl (scanStep tierFileA [tierFileA, tierFileB]) ⟨[tierFileA], {0}, .Identical, 1⟩).simType =
      (scanMatches tierFileA [tierFileA, tierFileB] {0} [1]).foldl
        (fun ty m => tierTypeStep ty m.2) SimilarityType.Identical ∧
    ([1].foldl (scanStep tierFileA [tierFileA, tierFileB]) ⟨[tierFileA], {0}, .Identical, 1⟩).simScore =
      (scanMatches tierFileA [tierFileA, tierFileB] {0} [1]).foldl
        (fun sc m => min sc (tierPairScore m.2)) 1) :=
  ⟨by decide, le_refl 1,
    tier_is_last_overwrite_score_is_min tierFileA [tierFileA, tierFileB] [1]
      ⟨[tierFileA], {0}, .Identical, 1⟩ (by decide) (le_refl 1)⟩

/-! ## Claim C6: hash-acquisition failure -/

/-- A file whose content can be read and hashed. -/
def readableFile : FileInfo := ⟨"x.txt", 1, "txt", 0, "good", none⟩

/-- The file whose read fails. -/
def unreadableFile : FileInfo := ⟨"y.txt", 2, "txt", 0, "bad", none⟩

/-- Another readable file. -/
def readableFile2 : FileInfo := ⟨"z.txt", 3, "txt", 0, "good2", none⟩

/-- A read oracle that fails exactly on the unreadable file's path. -/
def failOracle : String → Except String String :=
  fun p => if p = "bad" then .error "boom" else .ok "H"

/-- **C6 counterexample.**  A hash failure for a single file does not
merely exclude that file: the `?` operator in `group_similar_files`
aborts the whole batch, so the call returns the error and produces no
grouping output at all for the other files. -/
theorem hash_failure_aborts_whole_batch :
    group_similar_files failOracle [readableFile, unreadableFile, readableFile2] =
      .error "boom" ∧
    ∀ gs : List SimilarityGroup,
      group_similar_files failOracle [readableFile, unreadableFile, readableFile2] ≠
        .ok gs := by
  constructor
  · rfl
  · intro gs h
    rw [show group_similar_files failOracle
        [readableFile, unreadableFile, readableFile2] = .error "boom" from rfl] at h
    exact Except.noConfusion h

/-- **C6 amended (theorem).**  If hashing succeeds for every file of a
prefix and fails with error `e` for the next file, the whole call
returns `.error e`: the first failure aborts grouping for every file
in the batch. -/
theorem hash_failure_aborts_batch_general (readHash : String → Except String String)
    (l1 l2 : List FileInfo) (f : FileInfo) (e : String)
    (h1 : ∀ g ∈ l1, ∃ g', calculate_hash readHash g = .ok g')
    (h2 : calculate_hash readHash f = .error e) :
    group_similar_files readHash (l1 ++ f :: l2) = .error e := by
  have hmap : (l1 ++ f :: l2).mapM (calculate_hash readHash) = .error e := by
    induction l1 with
    | nil =>
      rw [List.nil_append, List.mapM_cons, h2]
      rfl
    | cons g l1 ih =>
      obtain ⟨g', hg'⟩ := h1 g (List.mem_cons_self g l1)
      have ih' := ih (fun g2 hg2 => h1 g2 (List.mem_cons_of_mem g hg2))
      rw [List.cons_append, List.mapM_cons, hg']
      have hred : (Except.ok g' >>= fun x =>
          ((l1 ++ f :: l2).mapM (calculate_hash readHash)) >>=
            fun xs => pure (x :: xs) : Except String (List FileInfo)) =
          ((l1 ++ f :: l2).mapM (calculate_hash readHash)) >>=
            fun xs => pure (g' :: xs) := rfl
      rw [hred, ih']
      rfl
  rw [group_similar_files, hmap]
  rfl

/-- **C6 amended witness.** -/
theorem hash_failure_aborts_batch_general_witness :
    group_similar_files failOracle [readableFile, unreadableFile, readableFile2] =
      .error "boom" :=
  hash_failure_aborts_batch_general failOracle [readableFile] [readableFile2]
    unreadableFile "boom"
    (by
      intro g hg
      rw [List.mem_singleton] at hg
      subst hg
      refine ⟨⟨"x.txt", 1, "txt", 0, "good", some "H"⟩, ?_⟩
      simp [calculate_hash, readableFile, failOracle, Except.map])
    (by simp [calculate_hash, unreadableFile, failOracle, Except.map])


/-! ## Facts about the Jaro matching loop -/

theorem find?_range'_eq_some {p : ℕ → Bool} :
    ∀ (s len : ℕ) (j : ℕ), s ≤ j → j < s + len → p j = true →
      (∀ k, s ≤ k → k < j → p k = false) →
      (List.range' s len).find? p = some j := by
  intro s len
  induction len generalizing s with
  | zero => intro j h1 h2 _ _; omega
  | succ len ih =>
    intro j h1 h2 hp hlt
    rw [List.range'_succ]
    by_cases hs : s = j
    · subst hs
      rw [List.find?_cons_of_pos _ hp]
    · have hps : p s = false := hlt s le_rfl (by omega)
      rw [List.find?_cons_of_neg _ (by simp [hps])]
      exact ih (s + 1) j (by omega) (by omega) hp (fun k hk1 hk2 => hlt k (by omega) hk2)

theorem findMatch_self (b : List Char) (sr s : ℕ) (hs : s < b.length) :
    findMatch b (Finset.range s) (if s > sr then s - sr else 0)
      (min b.length (s + sr + 1)) (b.getD s default) = some s := by
  unfold findMatch
  rw [List.range_eq_range']
  apply find?_range'_eq_some 0 _ s (Nat.zero_le s) (by omega)
  · simp only [Bool.and_eq_true, decide_eq_true_eq]
    refine ⟨⟨?_, trivial⟩, ?_⟩
    · split <;> omega
    · simp [Finset.mem_range]
  · intro k _ hkj
    rw [Bool.eq_false_iff]
    intro hcontra
    simp only [Bool.and_eq_true, decide_eq_true_eq] at hcontra
    exact hcontra.2 (Finset.mem_range.mpr hkj)

theorem matchLoop_self (b : List Char) (sr : ℕ) (s : ℕ) :
    matchLoop b sr (List.enumFrom s (b.drop s)) (Finset.range s) =
      (List.range' s ((b.drop s).length)).map (fun i => (i, i)) := by
  suffices H : ∀ (l : List Char) (s : ℕ), b.drop s = l →
      matchLoop b sr (List.enumFrom s l) (Finset.range s) =
        (List.range' s l.length).map (fun i => (i, i)) by
    exact H (b.drop s) s rfl
  intro l
  induction l with
  | nil => intro s _; simp [matchLoop]
  | cons c l ih =>
    intro s hdrop
    have hs : s < b.length := by
      by_contra hcon
      push_neg at hcon
      rw [List.drop_eq_nil_of_le hcon] at hdrop
      exact List.noConfusion hdrop
    have hc : b.getD s default = c := by
      have h1 : b[s]? = some c := by
        have h2 := List.getElem?_drop b s 0
        rw [Nat.add_zero] at h2
        rw [← h2, hdrop]
        exact List.getElem?_cons_zero
      rw [List.getD_eq_getElem?_getD, h1]
      rfl
    have hdrop' : b.drop (s + 1) = l := by
      have h3 : (b.drop s).drop 1 = b.drop (s + 1) := by
        rw [List.drop_drop]
      rw [← h3, hdrop, List.drop_one, List.tail_cons]
    rw [List.enumFrom_cons]
    show (match findMatch b (Finset.range s) (if s > sr then s - sr else 0)
        (min b.length (s + sr + 1)) c with
      | some j => (s, j) :: matchLoop b sr (List.enumFrom (s + 1) l)
          (insert j (Finset.range s))
      | none => matchLoop b sr (List.enumFrom (s + 1) l) (Finset.range s)) = _
    rw [← hc, findMatch_self b sr s hs]
    show (s, s) :: matchLoop b sr (List.enumFrom (s + 1) l)
        (insert s (Finset.range s)) = _
    rw [show insert s (Finset.range s) = Finset.range (s + 1) from
      (Finset.range_succ).symm]
    rw [ih (s + 1) hdrop']
    rw [List.length_cons, List.range'_succ, List.map_cons]

theorem jaroPairs_self (a : List Char) (sr : ℕ) :
    jaroPairs a a sr = (List.range' 0 a.length).map (fun i => (i, i)) := by
  rw [jaroPairs, List.enum_eq_enumFrom]
  have h := matchLoop_self a sr 0
  rw [List.drop_zero] at h
  rw [show (Finset.range 0 : Finset ℕ) = ∅ from rfl] at h
  exact h

theorem countMismatch_self (l : List Char) : countMismatch l l = 0 := by
  induction l with
  | nil => rfl
  | cons c l ih => simp [countMismatch, ih]

theorem jaroTrans_self (a : List Char) (sr : ℕ) :
    jaroTrans a a (jaroPairs a a sr) = 0 := by
  rw [jaroTrans, jaroPairs_self]
  have h1 : (((List.range' 0 a.length).map (fun i => (i, i))).map
      (fun p => a.getD p.1 default)) =
      (List.range' 0 a.length).map (fun k => a.getD k default) := by
    rw [List.map_map]
    rfl
  have h2 : ((List.range' 0 a.length).map (fun i => (i, i))).map Prod.snd =
      List.range' 0 a.length := by
    rw [List.map_map]
    exact List.map_id _
  rw [h1, h2]
  have hsorted : List.Sorted (· ≤ ·) (List.range' 0 a.length) :=
    List.Pairwise.imp le_of_lt (List.pairwise_lt_range' 0 a.length)
  rw [List.Sorted.insertionSort_eq hsorted]
  rw [countMismatch_self]

theorem jaroSim_self (a : List Char) (ha : a ≠ []) : jaroSim a a = 1 := by
  have hn : a.length ≠ 0 := fun h => ha (List.length_eq_zero.mp h)
  have hlen : (jaroPairs a a (max a.length a.length / 2 - 1)).length = a.length := by
    rw [jaroPairs_self, List.length_map, List.length_range']
  rw [jaroSim, if_neg (by omega : ¬(a.length = 0 ∧ a.length = 0)),
    if_neg (by omega : ¬(a.length = 0 ∨ a.length = 0)),
    if_neg (by omega : ¬(jaroPairs a a (max a.length a.length / 2 - 1)).length = 0)]
  rw [jaroTrans_self, hlen]
  have hq : ((a.length : ℚ)) ≠ 0 := by
    exact_mod_cast hn
  rw [Nat.sub_zero]
  field_simp
  norm_num

theorem jaroWinkler_self (a : List Char) (ha : a ≠ []) : jaroWinkler a a = 1 := by
  rw [jaroWinkler, jaroSim_self a ha, if_pos (by norm_num)]
  ring

theorem findMatch_some {b : List Char} {used : Finset ℕ} {minB maxB : ℕ}
    {c : Char} {j : ℕ} (h : findMatch b used minB maxB c = some j) :
    j < maxB ∧ minB ≤ j ∧ b.getD j default = c ∧ j ∉ used := by
  unfold findMatch at h
  have h1 := List.find?_some h
  have h2 := List.mem_of_find?_eq_some h
  rw [List.mem_range] at h2
  simp only [Bool.and_eq_true, decide_eq_true_eq] at h1
  exact ⟨h2, h1.1.1, h1.1.2, h1.2⟩

theorem matchLoop_length_le (b : List Char) (sr : ℕ) :
    ∀ (rest : List (ℕ × Char)) (used : Finset ℕ),
      (matchLoop b sr rest used).length ≤ rest.length := by
  intro rest
  induction rest with
  | nil => intro used; simp [matchLoop]
  | cons e rest ih =>
    intro used
    obtain ⟨i, c⟩ := e
    rw [matchLoop]
    rcases hfm : findMatch b used (if i > sr then i - sr else 0)
        (min b.length (i + sr + 1)) c with _ | j
    · calc (matchLoop b sr rest used).length ≤ rest.length := ih used
        _ ≤ (((i, c) :: rest).length) := by simp
    · simp only [List.length_cons]
      have := ih (insert j used)
      omega

theorem matchLoop_snd_prop (b : List Char) (sr : ℕ) :
    ∀ (rest : List (ℕ × Char)) (used : Finset ℕ),
      ∀ p ∈ matchLoop b sr rest used, p.2 < b.length ∧ p.2 ∉ used := by
  intro rest
  induction rest with
  | nil => intro used p hp; simp [matchLoop] at hp
  | cons e rest ih =>
    intro used p hp
    obtain ⟨i, c⟩ := e
    rw [matchLoop] at hp
    rcases hfm : findMatch b used (if i > sr then i - sr else 0)
        (min b.length (i + sr + 1)) c with _ | j
    · rw [hfm] at hp
      exact ih used p hp
    · rw [hfm] at hp
      obtain ⟨hj1, _, _, hj4⟩ := findMatch_some hfm
      rcases List.mem_cons.mp hp with h | h
      · subst h
        exact ⟨by omega, hj4⟩
      · have := ih (insert j used) p h
        exact ⟨this.1, fun hc => this.2 (Finset.mem_insert_of_mem hc)⟩

theorem matchLoop_snd_nodup (b : List Char) (sr : ℕ) :
    ∀ (rest : List (ℕ × Char)) (used : Finset ℕ),
      ((matchLoop b sr rest used).map Prod.snd).Nodup := by
  intro rest
  induction rest with
  | nil => intro used; simp [matchLoop]
  | cons e rest ih =>
    intro used
    obtain ⟨i, c⟩ := e
    rw [matchLoop]
    rcases hfm : findMatch b used (if i > sr then i - sr else 0)
        (min b.length (i + sr + 1)) c with _ | j
    · exact ih used
    · rw [List.map_cons, List.nodup_cons]
      refine ⟨?_, ih (insert j used)⟩
      intro hmem
      obtain ⟨p, hp, hpj⟩ := List.mem_map.mp hmem
      have := (matchLoop_snd_prop b sr rest (insert j used) p hp).2
      exact this (hpj ▸ Finset.mem_insert_self j used)

theorem matchLoop_fst_sublist (b : List Char) (sr : ℕ) :
    ∀ (rest : List (ℕ × Char)) (used : Finset ℕ),
      ((matchLoop b sr rest used).map Prod.fst).Sublist (rest.map Prod.fst) := by
  intro rest
  induction rest with
  | nil => intro used; simp [matchLoop]
  | cons e rest ih =>
    intro used
    obtain ⟨i, c⟩ := e
    rw [matchLoop]
    rcases hfm : findMatch b used (if i > sr then i - sr else 0)
        (min b.length (i + sr + 1)) c with _ | j
    · exact List.Sublist.cons _ (ih used)
    · rw [List.map_cons, List.map_cons]
      exact List.Sublist.cons₂ _ (ih (insert j used))

theorem countMismatch_le (l1 l2 : List Char) : countMismatch l1 l2 ≤ l1.length := by
  induction l1 generalizing l2 with
  | nil => rw [show countMismatch [] l2 = 0 from by cases l2 <;> rfl]; omega
  | cons x xs ih =>
    cases l2 with
    | nil => rw [show countMismatch (x :: xs) [] = 0 from rfl]; omega
    | cons y ys =>
      rw [countMismatch]
      have := ih ys
      have hsub : (if x = y then (0:ℕ) else 1) ≤ 1 := by split <;> omega
      simp only [List.length_cons]
      omega

theorem jaroPairs_length_le_left (a b : List Char) (sr : ℕ) :
    (jaroPairs a b sr).length ≤ a.length := by
  rw [jaroPairs]
  calc (matchLoop b sr a.enum ∅).length ≤ a.enum.length :=
      matchLoop_length_le b sr a.enum ∅
    _ = a.length := List.enum_length

theorem jaroPairs_length_le_right (a b : List Char) (sr : ℕ) :
    (jaroPairs a b sr).length ≤ b.length := by
  have h1 : ((jaroPairs a b sr).map Prod.snd).Nodup :=
    matchLoop_snd_nodup b sr a.enum ∅
  have h2 : ∀ k ∈ (jaroPairs a b sr).map Prod.snd, k < b.length := by
    intro k hk
    obtain ⟨p, hp, hpk⟩ := List.mem_map.mp hk
    exact hpk ▸ (matchLoop_snd_prop b sr a.enum ∅ p hp).1
  calc (jaroPairs a b sr).length = ((jaroPairs a b sr).map Prod.snd).length :=
      (List.length_map _ _).symm
    _ ≤ b.length := Grouper.length_le_of_nodup_lt _ h1 h2

theorem jaroTrans_le (a b : List Char) (pairs : List (ℕ × ℕ)) :
    jaroTrans a b pairs ≤ pairs.length := by
  rw [jaroTrans]
  have h1 := countMismatch_le (pairs.map fun p => a.getD p.1 default)
    (((pairs.map Prod.snd).insertionSort (· ≤ ·)).map fun j => b.getD j default)
  rw [List.length_map] at h1
  omega

theorem jaroSim_bounds (a b : List Char) : 0 ≤ jaroSim a b ∧ jaroSim a b ≤ 1 := by
  rw [jaroSim]
  split_ifs with h1 h2 h3
  · norm_num
  · norm_num
  · norm_num
  · push_neg at h1 h2
    obtain ⟨hal, hbl⟩ := h2
    set m := (jaroPairs a b (max a.length b.length / 2 - 1)).length with hm
    set t := jaroTrans a b (jaroPairs a b (max a.length b.length / 2 - 1)) with ht
    have hma : m ≤ a.length := jaroPairs_length_le_left a b _
    have hmb : m ≤ b.length := jaroPairs_length_le_right a b _
    have htm : t ≤ m := jaroTrans_le a b _
    have hmQ : (0:ℚ) < (m:ℚ) := by exact_mod_cast Nat.pos_of_ne_zero h3
    have haQ : (0:ℚ) < (a.length:ℚ) := by exact_mod_cast Nat.pos_of_ne_zero hal
    have hbQ : (0:ℚ) < (b.length:ℚ) := by exact_mod_cast Nat.pos_of_ne_zero hbl
    have f1 : (0:ℚ) ≤ (m:ℚ) / a.length := by positivity
    have f2 : (0:ℚ) ≤ (m:ℚ) / b.length := by positivity
    have f3 : (0:ℚ) ≤ ((m - t : ℕ):ℚ) / m := by positivity
    have g1 : (m:ℚ) / a.length ≤ 1 := by
      rw [div_le_one haQ]
      exact_mod_cast hma
    have g2 : (m:ℚ) / b.length ≤ 1 := by
      rw [div_le_one hbQ]
      exact_mod_cast hmb
    have g3 : ((m - t : ℕ):ℚ) / m ≤ 1 := by
      rw [div_le_one hmQ]
      exact_mod_cast Nat.sub_le m t
    constructor
    · linarith
    · linarith

theorem commonPrefixLen_le_left (l1 l2 : List Char) :
    commonPrefixLen l1 l2 ≤ l1.length := by
  induction l1 generalizing l2 with
  | nil => rw [show commonPrefixLen [] l2 = 0 from by cases l2 <;> rfl]; omega
  | cons x xs ih =>
    cases l2 with
    | nil => rw [show commonPrefixLen (x :: xs) [] = 0 from rfl]; omega
    | cons y ys =>
      rw [commonPrefixLen]
      have := ih ys
      simp only [List.length_cons]
      split <;> omega

theorem jaroWinkler_bounds (a b : List Char) :
    0 ≤ jaroWinkler a b ∧ jaroWinkler a b ≤ 1 := by
  obtain ⟨hs0, hs1⟩ := jaroSim_bounds a b
  rw [jaroWinkler]
  split_ifs with h
  · have hp4 : commonPrefixLen (a.take 4) b ≤ 4 := by
      calc commonPrefixLen (a.take 4) b ≤ (a.take 4).length :=
          commonPrefixLen_le_left _ _
        _ ≤ 4 := by rw [List.length_take]; omega
    have hpQ : (0:ℚ) ≤ (commonPrefixLen (a.take 4) b : ℚ) := by positivity
    have hpQ4 : (commonPrefixLen (a.take 4) b : ℚ) ≤ 4 := by exact_mod_cast hp4
    constructor
    · nlinarith
    · nlinarith
  · exact ⟨hs0, hs1⟩

/-! ## Claim C8: self-similarity and score range -/

theorem toList_ne_nil {s : String} (h : s ≠ "") : s.toList ≠ [] := by
  intro hc
  apply h
  cases s with
  | mk data =>
    simp only [String.toList] at hc
    rw [show ("" : String) = ⟨[]⟩ from rfl, hc]

theorem levenshtein_similarity_self (s : String) : levenshtein_similarity s s = 1 := by
  rw [levenshtein_similarity]
  simp only [levDist_self, Nat.cast_zero, zero_div, sub_zero, max_self, ite_self]

theorem levenshtein_similarity_bounds (s1 s2 : String) :
    0 ≤ levenshtein_similarity s1 s2 ∧ levenshtein_similarity s1 s2 ≤ 1 := by
  rw [levenshtein_similarity]
  split_ifs with h
  · norm_num
  · have hd : levDist s1.toList s2.toList ≤
        max (byteLen s1.toList) (byteLen s2.toList) := by
      calc levDist s1.toList s2.toList ≤
          max s1.toList.length s2.toList.length := levDist_le_max _ _
        _ ≤ max (byteLen s1.toList) (byteLen s2.toList) :=
          max_le_max (length_le_byteLen _) (length_le_byteLen _)
    rw [Nat.cast_max]
    have hmQ : (0:ℚ) < max ((byteLen s1.toList : ℚ)) ((byteLen s2.toList : ℚ)) := by
      rw [← Nat.cast_max]
      exact_mod_cast Nat.pos_of_ne_zero h
    have hfrac0 : (0:ℚ) ≤ (levDist s1.toList s2.toList : ℚ) /
        max ((byteLen s1.toList : ℚ)) ((byteLen s2.toList : ℚ)) := by positivity
    have hfrac1 : (levDist s1.toList s2.toList : ℚ) /
        max ((byteLen s1.toList : ℚ)) ((byteLen s2.toList : ℚ)) ≤ 1 := by
      rw [div_le_one hmQ, ← Nat.cast_max]
      exact_mod_cast hd
    constructor <;> linarith

theorem jaro_similarity_self (s : String) (h : s ≠ "") : jaro_similarity s s = 1 :=
  jaroWinkler_self s.toList (toList_ne_nil h)

theorem jaro_similarity_bounds (s1 s2 : String) :
    0 ≤ jaro_similarity s1 s2 ∧ jaro_similarity s1 s2 ≤ 1 :=
  jaroWinkler_bounds s1.toList s2.toList

theorem token_similarity_self (s : String) : token_similarity s s = 1 := by
  rw [token_similarity]
  split_ifs with h1 h2 h3
  · rfl
  · obtain he := h2.elim id id
    exact absurd ⟨he, he⟩ h1
  · rfl
  · push_neg at h1 h2
    rw [Finset.inter_self]
    rw [Finset.union_self] at h3 ⊢
    exact div_self (by exact_mod_cast h3)

theorem token_similarity_bounds (s1 s2 : String) :
    0 ≤ token_similarity s1 s2 ∧ token_similarity s1 s2 ≤ 1 := by
  rw [token_similarity]
  split_ifs with h1 h2 h3
  · norm_num
  · norm_num
  · norm_num
  · have hsub : ((tokenize s1).toFinset ∩ (tokenize s2).toFinset).card ≤
        ((tokenize s1).toFinset ∪ (tokenize s2).toFinset).card :=
      Finset.card_le_card Finset.inter_subset_union
    have huQ : (0:ℚ) < (((tokenize s1).toFinset ∪ (tokenize s2).toFinset).card : ℚ) := by
      exact_mod_cast Nat.pos_of_ne_zero h3
    constructor
    · positivity
    · rw [div_le_one huQ]
      exact_mod_cast hsub

theorem listContains_self (l : List Char) : listContains l l = true := by
  rw [listContains, List.any_eq_true]
  refine ⟨l, (List.mem_tails l l).mpr (List.suffix_refl l), ?_⟩
  rw [List.isPrefixOf_iff_prefix]

theorem substring_similarity_self (s : String) : substring_similarity s s = 1 := by
  rw [substring_similarity]
  split_ifs with h1 h2 h3 h4 h5
  · rfl
  · obtain he := h2.elim id id
    exact absurd ⟨he, he⟩ h1
  · push_neg at h1 h2
    have hb : byteLen (normalize_for_comparison s) ≠ 0 := by
      rw [Ne, byteLen_eq_zero_iff]
      exact h2.1
    exact div_self (by exact_mod_cast hb)
  · exact absurd (listContains_self _) h4
  · exact absurd le_rfl h3
  · exact absurd le_rfl h3

theorem substring_similarity_bounds (s1 s2 : String) :
    0 ≤ substring_similarity s1 s2 ∧ substring_similarity s1 s2 ≤ 1 := by
  rw [substring_similarity]
  split_ifs with h1 h2 h3 h4 h5
  · norm_num
  · norm_num
  · push_neg at h1 h2
    have hb2 : (0:ℚ) < (byteLen (normalize_for_comparison s2) : ℚ) := by
      have : byteLen (normalize_for_comparison s2) ≠ 0 := by
        rw [Ne, byteLen_eq_zero_iff]
        exact h2.2
      exact_mod_cast Nat.pos_of_ne_zero this
    constructor
    · positivity
    · rw [div_le_one hb2]
      exact_mod_cast h3
  · norm_num
  · push_neg at h1 h2 h3
    have hb1 : (0:ℚ) < (byteLen (normalize_for_comparison s1) : ℚ) := by
      have : byteLen (normalize_for_comparison s1) ≠ 0 := by
        rw [Ne, byteLen_eq_zero_iff]
        exact h2.1
      exact_mod_cast Nat.pos_of_ne_zero this
    constructor
    · positivity
    · rw [div_le_one hb1]
      exact_mod_cast le_of_lt h3
  · norm_num

theorem strLower_ne_empty {s : String} (h : s ≠ "") : strLower s ≠ "" := by
  intro hc
  apply toList_ne_nil h
  have : (strLower s).toList = s.toList.map Char.toLower := rfl
  rw [hc] at this
  exact List.map_eq_nil.mp this.symm

theorem auto_similarity_self (s : String) (h : s ≠ "") : auto_similarity s s = 1 := by
  rw [auto_similarity, levenshtein_similarity_self, jaro_similarity_self s h,
    token_similarity_self]
  split_ifs <;> norm_num

theorem auto_similarity_bounds (s1 s2 : String) :
    0 ≤ auto_similarity s1 s2 ∧ auto_similarity s1 s2 ≤ 1 := by
  obtain ⟨l0, l1⟩ := levenshtein_similarity_bounds s1 s2
  obtain ⟨j0, j1⟩ := jaro_similarity_bounds s1 s2
  obtain ⟨t0, t1⟩ := token_similarity_bounds s1 s2
  rw [auto_similarity]
  split_ifs
  · constructor <;> nlinarith
  · constructor <;> nlinarith

theorem int_log_eq {q : ℚ} {e : ℤ} (h1 : (2:ℚ) ^ e ≤ q)
    (h2 : q < (2:ℚ) ^ (e + 1)) : Int.log 2 q = e := by
  have hq : 0 < q := lt_of_lt_of_le (zpow_pos (by norm_num) e) h1
  have hub := Int.zpow_log_le_self (show 1 < 2 by norm_num) hq
  have hlb := Int.lt_zpow_succ_log_self (show 1 < 2 by norm_num) q
  have h3 : (2:ℚ) ^ (Int.log 2 q) < (2:ℚ) ^ (e + 1) := lt_of_le_of_lt hub h2
  have h4 : (2:ℚ) ^ e < (2:ℚ) ^ (Int.log 2 q + 1) := lt_of_le_of_lt h1 hlb
  have h5 : Int.log 2 q < e + 1 := by
    by_contra hc
    push_neg at hc
    exact absurd h3 (not_lt.mpr (zpow_le_zpow_right₀ (by norm_num) hc))
  have h6 : e < Int.log 2 q + 1 := by
    by_contra hc
    push_neg at hc
    exact absurd h4 (not_lt.mpr (zpow_le_zpow_right₀ (by norm_num) hc))
  omega

theorem rne_intCast (m : ℤ) : rne (m : ℚ) = m := by
  rw [rne, Int.floor_intCast, sub_self, if_pos (by norm_num : (0:ℚ) < 1/2)]

theorem rne_floor_lt {q : ℚ} {m : ℤ} (h1 : (m:ℚ) ≤ q) (h2 : q < (m:ℚ) + 1/2) :
    rne q = m := by
  have hf : ⌊q⌋ = m := Int.floor_eq_iff.mpr ⟨h1, by linarith⟩
  rw [rne, hf, if_pos (by linarith : q - (m:ℚ) < 1/2)]

theorem rne_tie {q : ℚ} {m : ℤ} (hq : q = (m:ℚ) + 1/2) :
    rne q = if m % 2 = 0 then m else m + 1 := by
  have hf : ⌊q⌋ = m := Int.floor_eq_iff.mpr ⟨by rw [hq]; linarith, by rw [hq]; linarith⟩
  have h0 : q - (m:ℚ) = 1/2 := by rw [hq]; ring
  rw [rne, hf, h0, if_neg (by norm_num), if_neg (by norm_num)]

theorem rnd53_eval {q : ℚ} (hq : 0 < q) {e : ℤ} (he : Int.log 2 q = e) :
    rnd53 q = (rne (q * 2 ^ ((52:ℤ) - e)) : ℚ) * 2 ^ (e - 52) := by
  rw [rnd53, if_neg (not_le.mpr hq), he]

theorem rnd53_dyadic {q : ℚ} {e m : ℤ}
    (hlo : (2:ℚ) ^ e ≤ q) (hhi : q < (2:ℚ) ^ (e + 1))
    (hscale : q * 2 ^ ((52:ℤ) - e) = (m : ℚ)) :
    rnd53 q = (m : ℚ) * 2 ^ (e - 52) := by
  have hq : 0 < q := lt_of_lt_of_le (zpow_pos (by norm_num) e) hlo
  rw [rnd53_eval hq (int_log_eq hlo hhi), hscale, rne_intCast]

theorem rnd53_round_down {q : ℚ} {e m : ℤ}
    (hlo : (2:ℚ) ^ e ≤ q) (hhi : q < (2:ℚ) ^ (e + 1))
    (h1 : (m:ℚ) ≤ q * 2 ^ ((52:ℤ) - e)) (h2 : q * 2 ^ ((52:ℤ) - e) < (m:ℚ) + 1/2) :
    rnd53 q = (m : ℚ) * 2 ^ (e - 52) := by
  have hq : 0 < q := lt_of_lt_of_le (zpow_pos (by norm_num) e) hlo
  rw [rnd53_eval hq (int_log_eq hlo hhi), rne_floor_lt h1 h2]

theorem rnd53_tie {q : ℚ} {e m : ℤ}
    (hlo : (2:ℚ) ^ e ≤ q) (hhi : q < (2:ℚ) ^ (e + 1))
    (htie : q * 2 ^ ((52:ℤ) - e) = (m:ℚ) + 1/2) :
    rnd53 q = ((if m % 2 = 0 then m else m + 1 : ℤ) : ℚ) * 2 ^ (e - 52) := by
  have hq : 0 < q := lt_of_lt_of_le (zpow_pos (by norm_num) e) hlo
  rw [rnd53_eval hq (int_log_eq hlo hhi), rne_tie htie]

theorem auto_f64_delim_eval :
    rnd53 (rnd53 (rnd53 ((1:ℚ) * c06) + rnd53 ((1:ℚ) * c03)) +
      rnd53 ((1:ℚ) * c01)) = ((2:ℚ) ^ 53 - 1) / 2 ^ 53 := by
  have h6 : rnd53 ((1:ℚ) * c06) = c06 := by
    rw [one_mul]
    rw [rnd53_dyadic (e := -1) (m := 5404319552844595)
      (by norm_num [c06]) (by norm_num [c06]) (by norm_num [c06])]
    norm_num [c06]
  have h3 : rnd53 ((1:ℚ) * c03) = c03 := by
    rw [one_mul]
    rw [rnd53_dyadic (e := -2) (m := 5404319552844595)
      (by norm_num [c03]) (by norm_num [c03]) (by norm_num [c03])]
    norm_num [c03]
  have h1 : rnd53 ((1:ℚ) * c01) = c01 := by
    rw [one_mul]
    rw [rnd53_dyadic (e := -4) (m := 7205759403792794)
      (by norm_num [c01]) (by norm_num [c01]) (by norm_num [c01])]
    norm_num [c01]
  have hs1 : rnd53 (c06 + c03) = (8106479329266892 : ℚ) / 2 ^ 53 := by
    rw [rnd53_tie (e := -1) (m := 8106479329266892)
      (by norm_num [c06, c03]) (by norm_num [c06, c03]) (by norm_num [c06, c03])]
    norm_num
  have hs2 : rnd53 ((8106479329266892 : ℚ) / 2 ^ 53 + c01) =
      ((2:ℚ) ^ 53 - 1) / 2 ^ 53 := by
    rw [rnd53_round_down (e := -1) (m := 9007199254740991)
      (by norm_num [c01]) (by norm_num [c01]) (by norm_num [c01]) (by norm_num [c01])]
    norm_num
  rw [h6, h3, h1, hs1, hs2]

theorem auto_f64_plain_eval :
    rnd53 (rnd53 (rnd53 ((1:ℚ) * c05) + rnd53 ((1:ℚ) * c03)) +
      rnd53 ((1:ℚ) * c02)) = 1 := by
  have h5 : rnd53 ((1:ℚ) * c05) = c05 := by
    rw [one_mul]
    rw [rnd53_dyadic (e := -1) (m := 4503599627370496)
      (by norm_num [c05]) (by norm_num [c05]) (by norm_num [c05])]
    norm_num [c05]
  have h3 : rnd53 ((1:ℚ) * c03) = c03 := by
    rw [one_mul]
    rw [rnd53_dyadic (e := -2) (m := 5404319552844595)
      (by norm_num [c03]) (by norm_num [c03]) (by norm_num [c03])]
    norm_num [c03]
  have h2 : rnd53 ((1:ℚ) * c02) = c02 := by
    rw [one_mul]
    rw [rnd53_dyadic (e := -3) (m := 7205759403792794)
      (by norm_num [c02]) (by norm_num [c02]) (by norm_num [c02])]
    norm_num [c02]
  have hv1 : rnd53 (c05 + c03) = (7205759403792794 : ℚ) / 2 ^ 53 := by
    rw [rnd53_tie (e := -1) (m := 7205759403792793)
      (by norm_num [c05, c03]) (by norm_num [c05, c03]) (by norm_num [c05, c03])]
    norm_num
  have hv2 : rnd53 ((7205759403792794 : ℚ) / 2 ^ 53 + c02) = 1 := by
    rw [rnd53_round_down (e := 0) (m := 4503599627370496)
      (by norm_num [c02]) (by norm_num [c02]) (by norm_num [c02]) (by norm_num [c02])]
    norm_num
  rw [h5, h3, h2, hv1, hv2]

theorem auto_f64_self (a : String) (ha : a ≠ "") :
    (hasDelimPair a a = false → auto_similarity_f64 a a = 1) ∧
    (hasDelimPair a a = true →
      auto_similarity_f64 a a = ((2:ℚ) ^ 53 - 1) / 2 ^ 53) := by
  constructor
  · intro hd
    rw [auto_similarity_f64, hd, if_neg (by simp)]
    rw [levenshtein_similarity_self, jaro_similarity_self a ha, token_similarity_self]
    exact auto_f64_plain_eval
  · intro hd
    rw [auto_similarity_f64, hd, if_pos rfl]
    rw [levenshtein_similarity_self, jaro_similarity_self a ha, token_similarity_self]
    exact auto_f64_delim_eval
/-- **C8.**  Corrected self-similarity: the self-score is exactly `1`
for the Levenshtein, Jaro–Winkler, Token and Substring algorithms on
every non-empty string (their self-score arithmetic is exact in
binary64 as well), and for `Auto` the binary64 evaluation of the
weighted combination yields exactly `1` on names without `'_'`, `'-'`
or `' '` — but on delimited names it yields `(2^53 - 1) / 2^53`, the
largest `f64` below `1`, not `1.0`.  In the exact-rational model every
algorithm's score lies in `[0, 1]` on all inputs. -/
theorem self_similarity_exact_and_f64_auto :
    (∀ (a : String) (algorithm : Algorithm) (case_sensitive : Bool), a ≠ "" →
      algorithm ≠ Algorithm.Auto →
      calculate_similarity a a algorithm case_sensitive = 1) ∧
    (∀ a : String, a ≠ "" → hasDelimPair a a = false →
      auto_similarity_f64 a a = 1) ∧
    (∀ a : String, a ≠ "" → hasDelimPair a a = true →
      auto_similarity_f64 a a = ((2:ℚ) ^ 53 - 1) / 2 ^ 53) ∧
    (∀ (a b : String) (algorithm : Algorithm) (case_sensitive : Bool),
      0 ≤ calculate_similarity a b algorithm case_sensitive ∧
        calculate_similarity a b algorithm case_sensitive ≤ 1) := by
  refine ⟨?_, ?_, ?_, ?_⟩
  · intro a alg cs ha hna
    cases cs with
    | true =>
      cases alg with
      | Levenshtein => exact levenshtein_similarity_self a
      | Jaro => exact jaro_similarity_self a ha
      | Token => exact token_similarity_self a
      | Substring => exact substring_similarity_self a
      | Auto => exact absurd rfl hna
    | false =>
      cases alg with
      | Levenshtein => exact levenshtein_similarity_self (strLower a)
      | Jaro => exact jaro_similarity_self (strLower a) (strLower_ne_empty ha)
      | Token => exact token_similarity_self (strLower a)
      | Substring => exact substring_similarity_self (strLower a)
      | Auto => exact absurd rfl hna
  · exact fun a ha => (auto_f64_self a ha).1
  · exact fun a ha => (auto_f64_self a ha).2
  · intro a b alg cs
    cases cs with
    | true =>
      cases alg with
      | Levenshtein => exact levenshtein_similarity_bounds a b
      | Jaro => exact jaro_similarity_bounds a b
      | Token => exact token_similarity_bounds a b
      | Substring => exact substring_similarity_bounds a b
      | Auto => exact auto_similarity_bounds a b
    | false =>
      cases alg with
      | Levenshtein => exact levenshtein_similarity_bounds (strLower a) (strLower b)
      | Jaro => exact jaro_similarity_bounds (strLower a) (strLower b)
      | Token => exact token_similarity_bounds (strLower a) (strLower b)
      | Substring => exact substring_similarity_bounds (strLower a) (strLower b)
      | Auto => exact auto_similarity_bounds (strLower a) (strLower b)

/-- **C8 witness.** -/
theorem self_similarity_f64_witness :
    (("report_v1.pdf" : String) ≠ "" ∧
      Algorithm.Levenshtein ≠ Algorithm.Auto ∧
      calculate_similarity "report_v1.pdf" "report_v1.pdf" .Levenshtein false = 1) ∧
    (hasDelimPair "report_v1.pdf" "report_v1.pdf" = true ∧
      auto_similarity_f64 "report_v1.pdf" "report_v1.pdf" =
        ((2:ℚ) ^ 53 - 1) / 2 ^ 53) :=
  ⟨⟨by decide, by decide,
    self_similarity_exact_and_f64_auto.1 "report_v1.pdf" .Levenshtein false
      (by decide) (by decide)⟩,
   ⟨by decide,
    self_similarity_exact_and_f64_auto.2.2.1 "report_v1.pdf" (by decide) (by decide)⟩⟩

/-- **C8 counterexample.**  On the delimited name `report_v1.pdf` the
exact-rational model gives Auto self-similarity `1`, but the binary64
evaluation of the same delimiter-branch expression — the arithmetic
`auto_similarity` actually performs on `f64` — yields the largest
double below `1` (`0.9999999999999999`), so the program's Auto
self-score is not exactly `1.0`. -/
theorem auto_self_score_f64_not_one :
    calculate_similarity "report_v1.pdf" "report_v1.pdf" .Auto false = 1 ∧
    hasDelimPair "report_v1.pdf" "report_v1.pdf" = true ∧
    auto_similarity_f64 "report_v1.pdf" "report_v1.pdf" =
      ((2:ℚ) ^ 53 - 1) / 2 ^ 53 ∧
    ((2:ℚ) ^ 53 - 1) / 2 ^ 53 < 1 := by
  refine ⟨?_, by decide, ?_, by norm_num⟩
  · exact auto_similarity_self (strLower "report_v1.pdf")
      (strLower_ne_empty (by decide))
  · exact (auto_f64_self "report_v1.pdf" (by decide)).2 (by decide)

/-! ## The per-class greedy matching behind `matchLoop`

The Jaro matching loop consumes, for each position of `a` in order, the
least free position of `b` carrying the same character inside the
search window.  Matches only ever pair equal characters and only
consume positions of the same character, so the loop decomposes per
character into a greedy interval matching `classGreedy` over the
position sets of that character.  Symmetry of the Jaro score reduces
to symmetry of this greedy matching. -/

/-- Positions of `l` holding character `c`. -/
def posOf (l : List Char) (c : Char) : Finset ℕ :=
  (Finset.range l.length).filter (fun j => l.getD j default = c)

theorem mem_posOf {l : List Char} {c : Char} {j : ℕ} :
    j ∈ posOf l c ↔ j < l.length ∧ l.getD j default = c := by
  rw [posOf, Finset.mem_filter, Finset.mem_range]

/-- The symmetric search window `|x - y| ≤ sr`. -/
def windowP (sr x y : ℕ) : Prop := x ≤ y + sr ∧ y ≤ x + sr

instance (sr x y : ℕ) : Decidable (windowP sr x y) := by
  rw [windowP]; infer_instance

/-- Greedy interval matching of one character class: repeatedly match
the least unmatched `a`-position to the least free `b`-position inside
its window. -/
def classGreedy (sr : ℕ) (X Y : Finset ℕ) : Finset (ℕ × ℕ) :=
  if hX : X.Nonempty then
    if hW : ((Y.filter (fun y => windowP sr (X.min' hX) y)).Nonempty) then
      insert (X.min' hX, (Y.filter (fun y => windowP sr (X.min' hX) y)).min' hW)
        (classGreedy sr (X.erase (X.min' hX))
          (Y.erase ((Y.filter (fun y => windowP sr (X.min' hX) y)).min' hW)))
    else classGreedy sr (X.erase (X.min' hX)) Y
  else ∅
termination_by X.card
decreasing_by
  all_goals
    rw [Finset.card_erase_of_mem (X.min'_mem hX)]
    have := Finset.card_pos.mpr hX
    omega

theorem classGreedy_empty_left (sr : ℕ) (Y : Finset ℕ) :
    classGreedy sr ∅ Y = ∅ := by
  rw [classGreedy, dif_neg (by simp : ¬(∅ : Finset ℕ).Nonempty)]

theorem classGreedy_empty_right (sr : ℕ) : ∀ (n : ℕ) (X : Finset ℕ),
    X.card ≤ n → classGreedy sr X ∅ = ∅ := by
  intro n
  induction n with
  | zero =>
    intro X hX
    have : X = ∅ := Finset.card_eq_zero.mp (by omega)
    subst this
    exact classGreedy_empty_left sr ∅
  | succ n ih =>
    intro X hX
    rw [classGreedy]
    by_cases hne : X.Nonempty
    · rw [dif_pos hne]
      rw [dif_neg (by simp)]
      apply ih
      rw [Finset.card_erase_of_mem (X.min'_mem hne)]
      omega
    · rw [dif_neg hne]

theorem mem_classGreedy (sr : ℕ) : ∀ (n : ℕ) (X Y : Finset ℕ), X.card ≤ n →
    ∀ p ∈ classGreedy sr X Y, p.1 ∈ X ∧ p.2 ∈ Y := by
  intro n
  induction n with
  | zero =>
    intro X Y hX p hp
    have : X = ∅ := Finset.card_eq_zero.mp (by omega)
    subst this
    rw [classGreedy_empty_left] at hp
    exact absurd hp (Finset.not_mem_empty p)
  | succ n ih =>
    intro X Y hX p hp
    rw [classGreedy] at hp
    by_cases hne : X.Nonempty
    · rw [dif_pos hne] at hp
      by_cases hW : ((Y.filter (fun y => windowP sr (X.min' hne) y)).Nonempty)
      · rw [dif_pos hW] at hp
        rcases Finset.mem_insert.mp hp with h | h
        · subst h
          refine ⟨X.min'_mem hne, ?_⟩
          have := Finset.min'_mem _ hW
          exact (Finset.mem_filter.mp this).1
        · have hcard : (X.erase (X.min' hne)).card ≤ n := by
            rw [Finset.card_erase_of_mem (X.min'_mem hne)]
            omega
          obtain ⟨h1, h2⟩ := ih _ _ hcard p h
          exact ⟨Finset.mem_of_mem_erase h1, Finset.mem_of_mem_erase h2⟩
      · rw [dif_neg hW] at hp
        have hcard : (X.erase (X.min' hne)).card ≤ n := by
          rw [Finset.card_erase_of_mem (X.min'_mem hne)]
          omega
        obtain ⟨h1, h2⟩ := ih _ _ hcard p hp
        exact ⟨Finset.mem_of_mem_erase h1, h2⟩
    · rw [dif_neg hne] at hp
      exact absurd hp (Finset.not_mem_empty p)


theorem windowP_comm {sr x y : ℕ} : windowP sr x y ↔ windowP sr y x := by
  rw [windowP, windowP]
  exact and_comm

theorem classGreedy_erase_far (sr : ℕ) : ∀ (n : ℕ) (X Y : Finset ℕ) (y0 : ℕ),
    X.card ≤ n → (∀ x ∈ X, ¬ windowP sr x y0) →
    classGreedy sr X Y = classGreedy sr X (Y.erase y0) := by
  intro n
  induction n with
  | zero =>
    intro X Y y0 hc _
    have hX : X = ∅ := Finset.card_eq_zero.mp (by omega)
    subst hX
    rw [classGreedy_empty_left, classGreedy_empty_left]
  | succ n ih =>
    intro X Y y0 hc hfar
    by_cases hne : X.Nonempty
    · have hynotW : y0 ∉ Y.filter (fun y => windowP sr (X.min' hne) y) := by
        intro hmem
        exact hfar _ (X.min'_mem hne) (Finset.mem_filter.mp hmem).2
      have hWeq : (Y.erase y0).filter (fun y => windowP sr (X.min' hne) y) =
          Y.filter (fun y => windowP sr (X.min' hne) y) := by
        rw [Finset.filter_erase]
        exact Finset.erase_eq_of_not_mem hynotW
      have hcard : (X.erase (X.min' hne)).card ≤ n := by
        rw [Finset.card_erase_of_mem (X.min'_mem hne)]
        have := Finset.card_pos.mpr hne
        omega
      have hfar' : ∀ x ∈ X.erase (X.min' hne), ¬ windowP sr x y0 :=
        fun x hx => hfar x (Finset.mem_of_mem_erase hx)
      rw [classGreedy]
      conv_rhs => rw [classGreedy]
      rw [dif_pos hne, dif_pos hne]
      simp only [hWeq]
      by_cases hW : (Y.filter (fun y => windowP sr (X.min' hne) y)).Nonempty
      · rw [dif_pos hW, dif_pos hW]
        congr 1
        rw [Finset.erase_right_comm]
        exact ih _ _ y0 hcard hfar'
      · rw [dif_neg hW, dif_neg hW]
        exact ih _ _ y0 hcard hfar'
    · have hX : X = ∅ := Finset.not_nonempty_iff_eq_empty.mp hne
      subst hX
      rw [classGreedy_empty_left, classGreedy_empty_left]

theorem classGreedy_swap (sr : ℕ) : ∀ (n : ℕ) (X Y : Finset ℕ),
    X.card + Y.card ≤ n →
    classGreedy sr X Y = (classGreedy sr Y X).image Prod.swap := by
  intro n
  induction n with
  | zero =>
    intro X Y hc
    have hXe : X = ∅ := Finset.card_eq_zero.mp (by omega)
    have hYe : Y = ∅ := Finset.card_eq_zero.mp (by omega)
    subst hXe; subst hYe
    rw [classGreedy_empty_left, Finset.image_empty]
  | succ n ih =>
    intro X Y hc
    by_cases hX : X.Nonempty
    · by_cases hY : Y.Nonempty
      · have hXc := Finset.card_pos.mpr hX
        have hYc := Finset.card_pos.mpr hY
        by_cases hw : windowP sr (X.min' hX) (Y.min' hY)
        · -- window case: the two minima match each other on both sides
          have hWne : (Y.filter (fun y => windowP sr (X.min' hX) y)).Nonempty :=
            ⟨Y.min' hY, Finset.mem_filter.mpr ⟨Y.min'_mem hY, hw⟩⟩
          have hWmin : (Y.filter (fun y => windowP sr (X.min' hX) y)).min' hWne
              = Y.min' hY := by
            apply le_antisymm
            · exact Finset.min'_le _ _ (Finset.mem_filter.mpr ⟨Y.min'_mem hY, hw⟩)
            · apply Finset.le_min'
              intro y hy
              exact Finset.min'_le Y y (Finset.mem_filter.mp hy).1
          have hVne : (X.filter (fun x => windowP sr (Y.min' hY) x)).Nonempty :=
            ⟨X.min' hX, Finset.mem_filter.mpr ⟨X.min'_mem hX, windowP_comm.mp hw⟩⟩
          have hVmin : (X.filter (fun x => windowP sr (Y.min' hY) x)).min' hVne
              = X.min' hX := by
            apply le_antisymm
            · exact Finset.min'_le _ _
                (Finset.mem_filter.mpr ⟨X.min'_mem hX, windowP_comm.mp hw⟩)
            · apply Finset.le_min'
              intro x hx
              exact Finset.min'_le X x (Finset.mem_filter.mp hx).1
          rw [classGreedy]
          conv_rhs => rw [classGreedy]
          rw [dif_pos hX, dif_pos hY, dif_pos hWne, dif_pos hVne]
          rw [hWmin, hVmin, Finset.image_insert]
          have hsw : Prod.swap (Y.min' hY, X.min' hX) = (X.min' hX, Y.min' hY) := rfl
          rw [hsw]
          congr 1
          apply ih
          rw [Finset.card_erase_of_mem (X.min'_mem hX),
            Finset.card_erase_of_mem (Y.min'_mem hY)]
          omega
        · rw [windowP, not_and_or, not_le, not_le] at hw
          rcases hw with hw | hw
          · -- Y.min' is far left of X.min': it matches nothing; drop it
            have hfarL : ∀ x ∈ X, ¬ windowP sr x (Y.min' hY) := by
              intro x hx hwin
              have := Finset.min'_le X x hx
              have h1 := hwin.1
              omega
            have hVe : X.filter (fun x => windowP sr (Y.min' hY) x) = ∅ := by
              apply Finset.filter_eq_empty_iff.mpr
              intro x hx hwin
              exact hfarL x hx (windowP_comm.mp hwin)
            rw [classGreedy_erase_far sr X.card X Y (Y.min' hY) le_rfl hfarL]
            conv_rhs => rw [classGreedy]
            rw [dif_pos hY]
            rw [dif_neg (by rw [hVe]; exact Finset.not_nonempty_empty)]
            apply ih
            rw [Finset.card_erase_of_mem (Y.min'_mem hY)]
            omega
          · -- X.min' is far left of Y.min': it matches nothing; drop it
            have hfarR : ∀ y ∈ Y, ¬ windowP sr y (X.min' hX) := by
              intro y hy hwin
              have := Finset.min'_le Y y hy
              have h1 := hwin.1
              omega
            have hWe : Y.filter (fun y => windowP sr (X.min' hX) y) = ∅ := by
              apply Finset.filter_eq_empty_iff.mpr
              intro y hy hwin
              exact hfarR y hy (windowP_comm.mp hwin)
            rw [classGreedy]
            rw [dif_pos hX]
            rw [dif_neg (by rw [hWe]; exact Finset.not_nonempty_empty)]
            rw [classGreedy_erase_far sr Y.card Y X (X.min' hX) le_rfl hfarR]
            apply ih
            rw [Finset.card_erase_of_mem (X.min'_mem hX)]
            omega
      · have hYe : Y = ∅ := Finset.not_nonempty_iff_eq_empty.mp hY
        subst hYe
        rw [classGreedy_empty_right sr X.card X le_rfl, classGreedy_empty_left,
          Finset.image_empty]
    · have hXe : X = ∅ := Finset.not_nonempty_iff_eq_empty.mp hX
      subst hXe
      rw [classGreedy_empty_left, classGreedy_empty_right sr Y.card Y le_rfl,
        Finset.image_empty]

theorem findMatch_eq_min (b : List Char) (U : Finset ℕ) (sr i : ℕ) (c : Char) :
    findMatch b U (if i > sr then i - sr else 0) (min b.length (i + sr + 1)) c
      = if hW : ((posOf b c \ U).filter (fun j => windowP sr i j)).Nonempty
        then some (((posOf b c \ U).filter (fun j => windowP sr i j)).min' hW)
        else none := by
  have hmem : ∀ j, j ∈ (posOf b c \ U).filter (fun j => windowP sr i j) ↔
      j < min b.length (i + sr + 1) ∧
        ((if i > sr then i - sr else 0) ≤ j ∧ b.getD j default = c ∧ j ∉ U) := by
    intro j
    rw [Finset.mem_filter, Finset.mem_sdiff, mem_posOf, windowP]
    constructor
    · rintro ⟨⟨⟨h1, h2⟩, h3⟩, h4, h5⟩
      refine ⟨by omega, by split <;> omega, h2, h3⟩
    · rintro ⟨h1, h2, h3, h4⟩
      rw [lt_min_iff] at h1
      refine ⟨⟨⟨h1.1, h3⟩, h4⟩, ?_, by omega⟩
      by_cases hsr : i > sr
      · rw [if_pos hsr] at h2; omega
      · omega
  unfold findMatch
  by_cases hW : ((posOf b c \ U).filter (fun j => windowP sr i j)).Nonempty
  · rw [dif_pos hW, List.range_eq_range']
    have hj0 := (hmem _).mp (Finset.min'_mem _ hW)
    apply find?_range'_eq_some 0 _ _ (Nat.zero_le _) (by omega)
    · simp only [Bool.and_eq_true, decide_eq_true_eq]
      exact ⟨⟨hj0.2.1, hj0.2.2.1⟩, hj0.2.2.2⟩
    · intro k _ hk
      rw [Bool.eq_false_iff]
      intro hcontra
      simp only [Bool.and_eq_true, decide_eq_true_eq] at hcontra
      have hkW : k ∈ (posOf b c \ U).filter (fun j => windowP sr i j) :=
        (hmem k).mpr ⟨by omega, hcontra.1.1, hcontra.1.2, hcontra.2⟩
      exact absurd (Finset.min'_le _ k hkW) (by omega)
  · rw [dif_neg hW]
    apply List.find?_eq_none.mpr
    intro k hk
    rw [List.mem_range] at hk
    intro hcontra
    simp only [Bool.and_eq_true, decide_eq_true_eq] at hcontra
    exact hW ⟨k, (hmem k).mpr ⟨hk, hcontra.1.1, hcontra.1.2, hcontra.2⟩⟩

set_option maxHeartbeats 1600000 in
theorem matchLoop_class (b : List Char) (sr : ℕ) (c : Char) :
    ∀ (L : List (ℕ × Char)) (U : Finset ℕ),
      L.Pairwise (fun p q => p.1 < q.1) →
      ((matchLoop b sr L U).filter (fun p => decide (b.getD p.2 default = c))).toFinset
        = classGreedy sr ((L.filter (fun e => decide (e.2 = c))).map Prod.fst).toFinset
            (posOf b c \ U) := by
  intro L
  induction L with
  | nil =>
    intro U _
    simp [matchLoop, classGreedy_empty_left]
  | cons e rest ih =>
    intro U hpw
    obtain ⟨i, ch⟩ := e
    rw [List.pairwise_cons] at hpw
    obtain ⟨hlt, hpw'⟩ := hpw
    rw [matchLoop]
    by_cases hch : ch = c
    · subst hch
      have hXeq : ((((i, ch) :: rest).filter (fun e => decide (e.2 = ch))).map
            Prod.fst).toFinset
          = insert i ((rest.filter (fun e => decide (e.2 = ch))).map
              Prod.fst).toFinset := by
        rw [List.filter_cons_of_pos (by simp), List.map_cons, List.toFinset_cons]
      have hiXr : i ∉ ((rest.filter (fun e => decide (e.2 = ch))).map
          Prod.fst).toFinset := by
        rw [List.mem_toFinset]
        intro hmemi
        obtain ⟨e, he, hei⟩ := List.mem_map.mp hmemi
        have := hlt e (List.mem_of_mem_filter he)
        omega
      have hXne : (insert i ((rest.filter (fun e => decide (e.2 = ch))).map
          Prod.fst).toFinset).Nonempty := ⟨i, Finset.mem_insert_self i _⟩
      have hmin : (insert i ((rest.filter (fun e => decide (e.2 = ch))).map
          Prod.fst).toFinset).min' hXne = i := by
        apply le_antisymm
        · exact Finset.min'_le _ _ (Finset.mem_insert_self i _)
        · apply Finset.le_min'
          intro x hx
          rcases Finset.mem_insert.mp hx with h | h
          · omega
          · rw [List.mem_toFinset] at h
            obtain ⟨e, he, hei⟩ := List.mem_map.mp h
            have := hlt e (List.mem_of_mem_filter he)
            omega
      rw [hXeq]
      conv_rhs => rw [classGreedy]
      rw [dif_pos hXne]
      simp only [hmin]
      rw [findMatch_eq_min b U sr i ch]
      by_cases hW : ((posOf b ch \ U).filter (fun j => windowP sr i j)).Nonempty
      · rw [dif_pos hW, dif_pos hW]
        have hj0 : ((posOf b ch \ U).filter (fun j => windowP sr i j)).min' hW
            ∈ (posOf b ch \ U).filter (fun j => windowP sr i j) :=
          Finset.min'_mem _ hW
        rw [Finset.mem_filter, Finset.mem_sdiff, mem_posOf] at hj0
        show ((((i, _) :: matchLoop b sr rest (insert _ U)).filter
          (fun p => decide (b.getD p.2 default = ch)))).toFinset = _
        rw [List.filter_cons_of_pos (by simp only [decide_eq_true_eq]; exact hj0.1.1.2), List.toFinset_cons]
        rw [Finset.erase_insert hiXr]
        have hsd : (posOf b ch \ U).erase
              (((posOf b ch \ U).filter (fun j => windowP sr i j)).min' hW)
            = posOf b ch \
              insert (((posOf b ch \ U).filter (fun j => windowP sr i j)).min' hW) U := by
          ext k
          simp only [Finset.mem_erase, Finset.mem_sdiff, Finset.mem_insert, not_or]
          constructor
          · rintro ⟨h1, h2, h3⟩
            exact ⟨h2, h1, h3⟩
          · rintro ⟨h1, h2, h3⟩
            exact ⟨h2, h1, h3⟩
        rw [hsd]
        rw [ih _ hpw']
      · rw [dif_neg hW, dif_neg hW]
        show ((matchLoop b sr rest U).filter
          (fun p => decide (b.getD p.2 default = ch))).toFinset = _
        rw [Finset.erase_insert hiXr]
        exact ih U hpw'
    · have hXeq : ((((i, ch) :: rest).filter (fun e => decide (e.2 = c))).map
            Prod.fst).toFinset
          = ((rest.filter (fun e => decide (e.2 = c))).map Prod.fst).toFinset := by
        rw [List.filter_cons_of_neg (by simp [hch])]
      rw [hXeq]
      rcases hfm : findMatch b U (if i > sr then i - sr else 0)
          (min b.length (i + sr + 1)) ch with _ | j
      · show ((matchLoop b sr rest U).filter
          (fun p => decide (b.getD p.2 default = c))).toFinset = _
        exact ih U hpw'
      · obtain ⟨hj1, hj2, hj3, hj4⟩ := findMatch_some hfm
        show (((i, j) :: matchLoop b sr rest (insert j U)).filter
          (fun p => decide (b.getD p.2 default = c))).toFinset = _
        rw [List.filter_cons_of_neg (by simp only [decide_eq_true_eq]; exact fun h => hch (hj3.symm.trans h))]
        have hU : posOf b c \ insert j U = posOf b c \ U := by
          ext k
          simp only [Finset.mem_sdiff, Finset.mem_insert, not_or]
          constructor
          · rintro ⟨h1, _, h3⟩
            exact ⟨h1, h3⟩
          · rintro ⟨h1, h2⟩
            refine ⟨h1, ?_, h2⟩
            intro he
            subst he
            rw [mem_posOf] at h1
            exact hch (hj3 ▸ h1.2)
        rw [ih _ hpw', hU]

theorem enum_pairwise_fst_lt (l : List Char) :
    l.enum.Pairwise (fun p q => p.1 < q.1) := by
  have h : (l.enum.map Prod.fst).Pairwise (· < ·) := by
    rw [List.enum_map_fst]
    exact List.pairwise_lt_range l.length
  exact List.pairwise_map.mp h

theorem enum_filter_class (a : List Char) (c : Char) :
    ((a.enum.filter (fun e => decide (e.2 = c))).map Prod.fst).toFinset = posOf a c := by
  ext j
  rw [List.mem_toFinset, mem_posOf]
  constructor
  · intro h
    obtain ⟨e, he, hej⟩ := List.mem_map.mp h
    rw [List.mem_filter, decide_eq_true_eq] at he
    obtain ⟨he1, he2⟩ := he
    obtain ⟨i, x⟩ := e
    have hget : a[i]? = some x := List.mk_mem_enum_iff_getElem?.mp he1
    have hlen : i < a.length := by
      by_contra hc
      push_neg at hc
      rw [List.getElem?_eq_none hc] at hget
      exact Option.noConfusion hget
    refine hej ▸ ⟨hlen, ?_⟩
    rw [List.getD_eq_getElem?_getD, hget]
    exact he2
  · rintro ⟨hj, hc⟩
    refine List.mem_map.mpr ⟨(j, a.getD j default), ?_, rfl⟩
    rw [List.mem_filter, decide_eq_true_eq]
    refine ⟨List.mk_mem_enum_iff_getElem?.mpr ?_, hc⟩
    rw [List.getD_eq_getElem?_getD, List.getElem?_eq_getElem hj]
    rfl

theorem jaroPairs_class (a b : List Char) (sr : ℕ) (c : Char) :
    ((jaroPairs a b sr).filter (fun p => decide (b.getD p.2 default = c))).toFinset
      = classGreedy sr (posOf a c) (posOf b c) := by
  rw [jaroPairs, matchLoop_class b sr c a.enum ∅ (enum_pairwise_fst_lt a),
    Finset.sdiff_empty, enum_filter_class]

theorem mem_jaroPairs_toFinset {a b : List Char} {sr : ℕ} {p : ℕ × ℕ} :
    p ∈ (jaroPairs a b sr).toFinset ↔
      p ∈ classGreedy sr (posOf a (b.getD p.2 default)) (posOf b (b.getD p.2 default)) := by
  constructor
  · intro h
    rw [← jaroPairs_class a b sr (b.getD p.2 default), List.mem_toFinset]
    rw [List.mem_toFinset] at h
    exact List.mem_filter.mpr ⟨h, by simp⟩
  · intro h
    rw [← jaroPairs_class a b sr (b.getD p.2 default), List.mem_toFinset] at h
    rw [List.mem_toFinset]
    exact List.mem_of_mem_filter h

theorem jaroPairs_toFinset_swap (a b : List Char) (sr : ℕ) :
    (jaroPairs a b sr).toFinset = ((jaroPairs b a sr).toFinset).image Prod.swap := by
  ext p
  rw [mem_jaroPairs_toFinset]
  constructor
  · intro h
    have hm := mem_classGreedy sr (posOf a (b.getD p.2 default)).card
      (posOf a (b.getD p.2 default)) (posOf b (b.getD p.2 default)) le_rfl p h
    rw [classGreedy_swap sr
      ((posOf a (b.getD p.2 default)).card + (posOf b (b.getD p.2 default)).card)
      (posOf a (b.getD p.2 default)) (posOf b (b.getD p.2 default)) le_rfl] at h
    obtain ⟨q, hq, hqp⟩ := Finset.mem_image.mp h
    refine Finset.mem_image.mpr ⟨q, ?_, hqp⟩
    rw [mem_jaroPairs_toFinset]
    have hq2 : q.2 = p.1 := congrArg Prod.fst hqp
    have hc : a.getD q.2 default = b.getD p.2 default := by
      rw [hq2]
      exact (mem_posOf.mp hm.1).2
    rw [hc]
    exact hq
  · intro h
    obtain ⟨q, hq, hqp⟩ := Finset.mem_image.mp h
    rw [mem_jaroPairs_toFinset] at hq
    have hm := mem_classGreedy sr (posOf b (a.getD q.2 default)).card
      (posOf b (a.getD q.2 default)) (posOf a (a.getD q.2 default)) le_rfl q hq
    have hq1 : q.1 = p.2 := congrArg Prod.snd hqp
    have hc : b.getD p.2 default = a.getD q.2 default := by
      rw [← hq1]
      exact (mem_posOf.mp hm.1).2
    rw [hc, classGreedy_swap sr
      ((posOf a (a.getD q.2 default)).card + (posOf b (a.getD q.2 default)).card)
      (posOf a (a.getD q.2 default)) (posOf b (a.getD q.2 default)) le_rfl]
    exact Finset.mem_image.mpr ⟨q, hq, hqp⟩

theorem jaroPairs_fst_nodup (a b : List Char) (sr : ℕ) :
    ((jaroPairs a b sr).map Prod.fst).Nodup := by
  apply List.Nodup.sublist (matchLoop_fst_sublist b sr a.enum ∅)
  rw [List.enum_map_fst]
  exact List.nodup_range _

theorem jaroPairs_nodup (a b : List Char) (sr : ℕ) : (jaroPairs a b sr).Nodup :=
  (jaroPairs_fst_nodup a b sr).of_map

theorem jaroPairs_fst_sorted (a b : List Char) (sr : ℕ) :
    ((jaroPairs a b sr).map Prod.fst).Sorted (· ≤ ·) := by
  apply List.Pairwise.sublist (matchLoop_fst_sublist b sr a.enum ∅)
  rw [List.enum_map_fst]
  exact (List.pairwise_lt_range _).imp le_of_lt

theorem jaroPairs_length_swap (a b : List Char) (sr : ℕ) :
    (jaroPairs a b sr).length = (jaroPairs b a sr).length := by
  rw [← List.toFinset_card_of_nodup (jaroPairs_nodup a b sr),
    ← List.toFinset_card_of_nodup (jaroPairs_nodup b a sr),
    jaroPairs_toFinset_swap a b sr,
    Finset.card_image_of_injective _ Prod.swap_injective]

theorem jaroPairs_snd_toFinset (a b : List Char) (sr : ℕ) :
    ((jaroPairs b a sr).map Prod.snd).toFinset
      = ((jaroPairs a b sr).map Prod.fst).toFinset := by
  ext j
  simp only [List.mem_toFinset, List.mem_map]
  constructor
  · rintro ⟨q, hq, rfl⟩
    have hs : Prod.swap q ∈ (jaroPairs a b sr).toFinset := by
      rw [jaroPairs_toFinset_swap a b sr]
      exact Finset.mem_image_of_mem _ (List.mem_toFinset.mpr hq)
    exact ⟨Prod.swap q, List.mem_toFinset.mp hs, rfl⟩
  · rintro ⟨p, hp, rfl⟩
    have hps : p ∈ ((jaroPairs b a sr).toFinset).image Prod.swap := by
      rw [← jaroPairs_toFinset_swap a b sr]
      exact List.mem_toFinset.mpr hp
    obtain ⟨q, hq, hqp⟩ := Finset.mem_image.mp hps
    exact ⟨q, List.mem_toFinset.mp hq, congrArg Prod.fst hqp⟩

theorem jaroPairs_sortedSnd (a b : List Char) (sr : ℕ) :
    ((jaroPairs b a sr).map Prod.snd).insertionSort (· ≤ ·)
      = (jaroPairs a b sr).map Prod.fst := by
  apply List.eq_of_perm_of_sorted (r := (· ≤ ·))
  · refine (List.perm_insertionSort _ _).trans ?_
    apply List.perm_of_nodup_nodup_toFinset_eq
    · exact matchLoop_snd_nodup a sr b.enum ∅
    · exact jaroPairs_fst_nodup a b sr
    · exact jaroPairs_snd_toFinset a b sr
  · exact List.sorted_insertionSort _ _
  · exact jaroPairs_fst_sorted a b sr

theorem countMismatch_comm (l1 l2 : List Char) :
    countMismatch l1 l2 = countMismatch l2 l1 := by
  induction l1 generalizing l2 with
  | nil => cases l2 <;> rfl
  | cons x xs ih =>
    cases l2 with
    | nil => rfl
    | cons y ys =>
      rw [countMismatch, countMismatch, ih ys]
      congr 1
      by_cases h : x = y
      · rw [if_pos h, if_pos h.symm]
      · rw [if_neg h, if_neg (fun hc => h hc.symm)]

theorem jaroTrans_swap (a b : List Char) (sr : ℕ) :
    jaroTrans a b (jaroPairs a b sr) = jaroTrans b a (jaroPairs b a sr) := by
  rw [jaroTrans, jaroTrans, jaroPairs_sortedSnd b a sr, jaroPairs_sortedSnd a b sr]
  simp only [List.map_map, Function.comp_def]
  rw [countMismatch_comm]

theorem jaroSim_comm (a b : List Char) : jaroSim a b = jaroSim b a := by
  rw [jaroSim, jaroSim, max_comm b.length a.length]
  rw [jaroPairs_length_swap b a (max a.length b.length / 2 - 1),
    jaroTrans_swap b a (max a.length b.length / 2 - 1)]
  by_cases h1 : a.length = 0 <;> by_cases h2 : b.length = 0
  · rw [if_pos ⟨h1, h2⟩, if_pos ⟨h2, h1⟩]
  · rw [if_neg (show ¬(a.length = 0 ∧ b.length = 0) from fun h => h2 h.2),
      if_neg (show ¬(b.length = 0 ∧ a.length = 0) from fun h => h2 h.1),
      if_pos (Or.inl h1), if_pos (Or.inr h1)]
  · rw [if_neg (show ¬(a.length = 0 ∧ b.length = 0) from fun h => h1 h.1),
      if_neg (show ¬(b.length = 0 ∧ a.length = 0) from fun h => h1 h.2),
      if_pos (Or.inr h2), if_pos (Or.inl h2)]
  · rw [if_neg (show ¬(a.length = 0 ∧ b.length = 0) from fun h => h1 h.1),
      if_neg (show ¬(b.length = 0 ∧ a.length = 0) from fun h => h1 h.2),
      if_neg (show ¬(a.length = 0 ∨ b.length = 0) from fun h => h.elim h1 h2),
      if_neg (show ¬(b.length = 0 ∨ a.length = 0) from fun h => h.elim h2 h1)]
    by_cases hm0 : (jaroPairs a b (max a.length b.length / 2 - 1)).length = 0
    · rw [if_pos hm0, if_pos hm0]
    · rw [if_neg hm0, if_neg hm0]
      ring

theorem commonPrefixLen_comm (l1 l2 : List Char) :
    commonPrefixLen l1 l2 = commonPrefixLen l2 l1 := by
  induction l1 generalizing l2 with
  | nil => cases l2 <;> rfl
  | cons x xs ih =>
    cases l2 with
    | nil => rfl
    | cons y ys =>
      rw [commonPrefixLen, commonPrefixLen]
      by_cases h : x = y
      · rw [if_pos h, if_pos h.symm, ih ys]
      · rw [if_neg h, if_neg (fun hc => h hc.symm)]

theorem commonPrefixLen_nil_right (l : List Char) : commonPrefixLen l [] = 0 := by
  cases l <;> rfl

theorem commonPrefixLen_take (n : ℕ) (l1 l2 : List Char) :
    commonPrefixLen (l1.take n) l2 = min n (commonPrefixLen l1 l2) := by
  induction l1 generalizing n l2 with
  | nil =>
    rw [List.take_nil]
    cases l2 <;> simp [commonPrefixLen]
  | cons x xs ih =>
    cases n with
    | zero =>
      rw [List.take_zero]
      have h0 : commonPrefixLen [] l2 = 0 := by cases l2 <;> rfl
      rw [h0]
      simp
    | succ n =>
      cases l2 with
      | nil =>
        rw [commonPrefixLen_nil_right, commonPrefixLen_nil_right]
        simp
      | cons y ys =>
        rw [List.take_succ_cons, commonPrefixLen, commonPrefixLen]
        by_cases h : x = y
        · rw [if_pos h, if_pos h, ih]
          omega
        · rw [if_neg h, if_neg h]
          simp

theorem jaroWinkler_comm (a b : List Char) : jaroWinkler a b = jaroWinkler b a := by
  rw [jaroWinkler, jaroWinkler, jaroSim_comm a b]
  rw [show commonPrefixLen (a.take 4) b = commonPrefixLen (b.take 4) a from by
    rw [commonPrefixLen_take, commonPrefixLen_take, commonPrefixLen_comm]]

/-! ## Claim C7: symmetry of every similarity algorithm -/

theorem levenshtein_similarity_comm (s1 s2 : String) :
    levenshtein_similarity s1 s2 = levenshtein_similarity s2 s1 := by
  rw [levenshtein_similarity, levenshtein_similarity,
    levDist_comm s1.toList s2.toList, max_comm (byteLen s1.toList) (byteLen s2.toList)]

theorem jaro_similarity_comm (s1 s2 : String) :
    jaro_similarity s1 s2 = jaro_similarity s2 s1 := by
  rw [jaro_similarity, jaro_similarity, jaroWinkler_comm]

theorem token_similarity_comm (s1 s2 : String) :
    token_similarity s1 s2 = token_similarity s2 s1 := by
  rw [token_similarity, token_similarity,
    Finset.union_comm (tokenize s1).toFinset (tokenize s2).toFinset,
    Finset.inter_comm (tokenize s1).toFinset (tokenize s2).toFinset]
  by_cases h1 : tokenize s1 = [] <;> by_cases h2 : tokenize s2 = []
  · rw [if_pos ⟨h1, h2⟩, if_pos ⟨h2, h1⟩]
  · rw [if_neg (show ¬(tokenize s1 = [] ∧ tokenize s2 = []) from fun h => h2 h.2),
      if_neg (show ¬(tokenize s2 = [] ∧ tokenize s1 = []) from fun h => h2 h.1),
      if_pos (Or.inl h1), if_pos (Or.inr h1)]
  · rw [if_neg (show ¬(tokenize s1 = [] ∧ tokenize s2 = []) from fun h => h1 h.1),
      if_neg (show ¬(tokenize s2 = [] ∧ tokenize s1 = []) from fun h => h1 h.2),
      if_pos (Or.inr h2), if_pos (Or.inl h2)]
  · rw [if_neg (show ¬(tokenize s1 = [] ∧ tokenize s2 = []) from fun h => h1 h.1),
      if_neg (show ¬(tokenize s2 = [] ∧ tokenize s1 = []) from fun h => h1 h.2),
      if_neg (show ¬(tokenize s1 = [] ∨ tokenize s2 = []) from fun h => h.elim h1 h2),
      if_neg (show ¬(tokenize s2 = [] ∨ tokenize s1 = []) from fun h => h.elim h2 h1)]

theorem byteLen_append (l1 l2 : List Char) :
    byteLen (l1 ++ l2) = byteLen l1 + byteLen l2 := by
  rw [byteLen, byteLen, byteLen, List.map_append, List.sum_append]

theorem listContains_infix_iff {h n : List Char} :
    listContains h n = true ↔ n <:+: h := by
  rw [listContains, List.any_eq_true]
  constructor
  · rintro ⟨t, ht, hp⟩
    rw [List.mem_tails] at ht
    rw [List.isPrefixOf_iff_prefix] at hp
    exact List.infix_iff_prefix_suffix.mpr ⟨t, hp, ht⟩
  · intro hinf
    obtain ⟨t, hp, ht⟩ := List.infix_iff_prefix_suffix.mp hinf
    exact ⟨t, (List.mem_tails t h).mpr ht, (List.isPrefixOf_iff_prefix).mpr hp⟩

theorem infix_eq_of_byteLen_eq {n h : List Char} (hinf : n <:+: h)
    (hlen : byteLen n = byteLen h) : n = h := by
  obtain ⟨s, t, rfl⟩ := hinf
  rw [byteLen_append, byteLen_append] at hlen
  have hs : byteLen s = 0 := by omega
  have ht : byteLen t = 0 := by omega
  rw [(byteLen_eq_zero_iff s).mp hs, (byteLen_eq_zero_iff t).mp ht]
  simp

theorem substring_similarity_comm (s1 s2 : String) :
    substring_similarity s1 s2 = substring_similarity s2 s1 := by
  rw [substring_similarity, substring_similarity]
  by_cases h1 : normalize_for_comparison s1 = [] <;>
    by_cases h2 : normalize_for_comparison s2 = []
  · rw [if_pos ⟨h1, h2⟩, if_pos ⟨h2, h1⟩]
  · rw [if_neg (show ¬(normalize_for_comparison s1 = [] ∧
        normalize_for_comparison s2 = []) from fun h => h2 h.2),
      if_neg (show ¬(normalize_for_comparison s2 = [] ∧
        normalize_for_comparison s1 = []) from fun h => h2 h.1),
      if_pos (Or.inl h1), if_pos (Or.inr h1)]
  · rw [if_neg (show ¬(normalize_for_comparison s1 = [] ∧
        normalize_for_comparison s2 = []) from fun h => h1 h.1),
      if_neg (show ¬(normalize_for_comparison s2 = [] ∧
        normalize_for_comparison s1 = []) from fun h => h1 h.2),
      if_pos (Or.inr h2), if_pos (Or.inl h2)]
  · rw [if_neg (show ¬(normalize_for_comparison s1 = [] ∧
        normalize_for_comparison s2 = []) from fun h => h1 h.1),
      if_neg (show ¬(normalize_for_comparison s2 = [] ∧
        normalize_for_comparison s1 = []) from fun h => h1 h.2),
      if_neg (show ¬(normalize_for_comparison s1 = [] ∨
        normalize_for_comparison s2 = []) from fun h => h.elim h1 h2),
      if_neg (show ¬(normalize_for_comparison s2 = [] ∨
        normalize_for_comparison s1 = []) from fun h => h.elim h2 h1)]
    rcases lt_trichotomy (byteLen (normalize_for_comparison s1))
        (byteLen (normalize_for_comparison s2)) with hlt | heq | hgt
    · rw [if_pos (le_of_lt hlt), if_neg (not_le.mpr hlt)]
    · rw [if_pos (le_of_eq heq), if_pos (le_of_eq heq.symm)]
      by_cases hc : listContains (normalize_for_comparison s2)
          (normalize_for_comparison s1) = true
      · have he : normalize_for_comparison s1 = normalize_for_comparison s2 :=
          infix_eq_of_byteLen_eq (listContains_infix_iff.mp hc) heq
        rw [he]
      · have hc2 : ¬ listContains (normalize_for_comparison s1)
            (normalize_for_comparison s2) = true := by
          intro hcon
          have he : normalize_for_comparison s2 = normalize_for_comparison s1 :=
            infix_eq_of_byteLen_eq (listContains_infix_iff.mp hcon) heq.symm
          rw [he] at hcon
          exact hc (he ▸ hcon)
        rw [if_neg hc, if_neg hc2]
    · rw [if_neg (not_le.mpr hgt), if_pos (le_of_lt hgt)]

theorem auto_similarity_comm (s1 s2 : String) :
    auto_similarity s1 s2 = auto_similarity s2 s1 := by
  have hcond : (s1.toList.contains '_' || s1.toList.contains '-' ||
      s1.toList.contains ' ' || s2.toList.contains '_' || s2.toList.contains '-' ||
      s2.toList.contains ' ')
      = (s2.toList.contains '_' || s2.toList.contains '-' ||
      s2.toList.contains ' ' || s1.toList.contains '_' || s1.toList.contains '-' ||
      s1.toList.contains ' ') := by
    rw [Bool.eq_iff_iff]
    simp only [Bool.or_eq_true]
    tauto
  rw [auto_similarity, auto_similarity, hcond, token_similarity_comm s1 s2,
    jaro_similarity_comm s1 s2, levenshtein_similarity_comm s1 s2]

theorem calculate_similarity_comm (s1 s2 : String) (alg : Algorithm) (cs : Bool) :
    calculate_similarity s1 s2 alg cs = calculate_similarity s2 s1 alg cs := by
  cases alg
  · exact levenshtein_similarity_comm _ _
  · exact jaro_similarity_comm _ _
  · exact token_similarity_comm _ _
  · exact substring_similarity_comm _ _
  · exact auto_similarity_comm _ _

/-- **C7.**  `calculate_similarity` is symmetric in its two string
arguments, for every algorithm (including the composite `Auto`) and
either value of `case_sensitive`. -/
theorem similarity_commutative (s1 s2 : String) (alg : Algorithm) (cs : Bool) :
    calculate_similarity s1 s2 alg cs = calculate_similarity s2 s1 alg cs :=
  calculate_similarity_comm s1 s2 alg cs

/-! ## Claim C9: raising the threshold never enlarges a group

The t2-run's groups are connected under the thresholded similarity
relation; a closed t1-closure that touches a t2-connected set absorbs
it whole, so every group emitted at the higher threshold is contained
in a group emitted at the lower one. -/

namespace Grouper

variable {simI : ℕ → ℕ → ℚ} {t : ℚ} {n : ℕ} {P : Finset ℕ}

/-- Two members of `K` joined by a threshold-`t` similarity edge in
either direction. -/
def Linked (simI : ℕ → ℕ → ℚ) (t : ℚ) (K : List ℕ) (x y : ℕ) : Prop :=
  x ∈ K ∧ y ∈ K ∧ (t ≤ simI x y ∨ t ≤ simI y x)

/-- Every member of `K` is reachable from `a` through in-group links. -/
def ConnFrom (simI : ℕ → ℕ → ℚ) (t : ℚ) (K : List ℕ) (a : ℕ) : Prop :=
  ∀ k ∈ K, Relation.ReflTransGen (Linked simI t K) a k

theorem reach_mono {K K' : List ℕ} (hsub : ∀ x ∈ K, x ∈ K') {a k : ℕ}
    (h : Relation.ReflTransGen (Linked simI t K) a k) :
    Relation.ReflTransGen (Linked simI t K') a k :=
  Relation.ReflTransGen.mono
    (fun _ _ hxy => ⟨hsub _ hxy.1, hsub _ hxy.2.1, hxy.2.2⟩) h

theorem memberScan_conn {g : ℕ} {acc : List ℕ × List ℚ} {a : ℕ}
    (hg : g ∈ acc.1) (hconn : ConnFrom simI t acc.1 a) :
    ConnFrom simI t (memberScan simI t n P g acc).1 a := by
  obtain ⟨l, hl, hlprop⟩ := @memberScan_sublist simI t n P g acc
  intro k hk
  rw [hl] at hk ⊢
  have hsub : ∀ x ∈ acc.1, x ∈ acc.1 ++ l :=
    fun x hx => List.mem_append.mpr (Or.inl hx)
  rcases List.mem_append.mp hk with h | h
  · exact reach_mono hsub (hconn k h)
  · refine Relation.ReflTransGen.tail (reach_mono hsub (hconn g hg)) ?_
    exact ⟨List.mem_append.mpr (Or.inl hg), List.mem_append.mpr (Or.inr h),
      Or.inl (hlprop k h).2.2.2⟩

theorem passOnce_conn {cur : List ℕ} {acc : List ℕ × List ℚ} {a : ℕ}
    (hcur : ∀ g ∈ cur, g ∈ acc.1) (hconn : ConnFrom simI t acc.1 a) :
    ConnFrom simI t (passOnce simI t n P cur acc).1 a := by
  induction cur generalizing acc with
  | nil => exact hconn
  | cons g gs ih =>
    rw [passOnce, List.foldl_cons, ← passOnce]
    apply ih
    · intro g' hg'
      obtain ⟨l, hl, -⟩ := @memberScan_sublist simI t n P g acc
      rw [hl]
      exact List.mem_append.mpr (Or.inl (hcur g' (List.mem_cons_of_mem g hg')))
    · exact memberScan_conn (hcur g (List.mem_cons_self g gs)) hconn

theorem expandLoop_conn (fuel : ℕ) (cur : List ℕ) (acc : List ℕ × List ℚ) {a : ℕ}
    (hcur : cur = acc.1) (hconn : ConnFrom simI t acc.1 a) :
    ConnFrom simI t (expandLoop simI t n P fuel cur acc).1 a := by
  induction fuel generalizing cur acc with
  | zero => exact hconn
  | succ fuel ih =>
    rw [expandLoop]
    by_cases hlen : (passOnce simI t n P cur acc).1.length = acc.1.length
    · rw [if_pos hlen]
      exact passOnce_conn (by rw [hcur]; exact fun g hg => hg) hconn
    · rw [if_neg hlen]
      exact ih _ _ rfl (passOnce_conn (by rw [hcur]; exact fun g hg => hg) hconn)

theorem seedScan_conn (i : ℕ) : ConnFrom simI t (seedScan simI t n P i).1 i := by
  intro k hk
  rcases seedScan_mem i k hk with h | h
  · subst h; exact Relation.ReflTransGen.refl
  · exact Relation.ReflTransGen.single ⟨seedScan_anchor_mem i, hk, Or.inl h.2.2.2⟩

theorem anchorClosure_conn (i : ℕ) :
    ConnFrom simI t (anchorClosure simI t n P i).1 i :=
  expandLoop_conn n _ _ rfl (seedScan_conn i)

theorem processAnchor_igroups_mono {minSize : ℕ} {st : AnchorState} {i : ℕ}
    {H : List ℕ × ℚ} (hH : H ∈ st.igroups) :
    H ∈ (processAnchor simI t n minSize st i).igroups := by
  by_cases hP : i ∈ st.processed
  · rw [processAnchor_skip minSize st i hP]; exact hH
  · by_cases hmin : minSize ≤ (anchorClosure simI t n st.processed i).1.length
    · rw [processAnchor_emit minSize st i hP hmin]
      exact List.mem_append.mpr (Or.inl hH)
    · rw [processAnchor_small minSize st i hP (by omega)]
      exact hH

theorem length_le_of_subset_nodup {K H : List ℕ} (hnd : K.Nodup)
    (hsub : ∀ k ∈ K, k ∈ H) : K.length ≤ H.length := by
  have h1 : K.length = K.toFinset.card := (List.toFinset_card_of_nodup hnd).symm
  have h2 : K.toFinset ⊆ H.toFinset :=
    fun k hk => List.mem_toFinset.mpr (hsub k (List.mem_toFinset.mp hk))
  have h3 := Finset.card_le_card h2
  have h4 := List.toFinset_card_le H
  omega

theorem closure_absorbs {t2 : ℚ} (hsym : ∀ x y, simI x y = simI y x)
    (ht12 : t ≤ t2) {K : List ℕ} {a : ℕ}
    (hconn : ConnFrom simI t2 K a)
    (hKlt : ∀ k ∈ K, k < n) (st : AnchorState)
    (hKP : ∀ k ∈ K, k ∉ st.processed) {i : ℕ} (hi : i < n)
    {x0 : ℕ} (hx0K : x0 ∈ K)
    (hx0C : x0 ∈ (anchorClosure simI t n st.processed i).1) :
    ∀ k ∈ K, k ∈ (anchorClosure simI t n st.processed i).1 := by
  have hclosed := @anchorClosure_closed simI t n st i hi
  have hsymm : Symmetric (Linked simI t2 K) :=
    fun x y hxy => ⟨hxy.2.1, hxy.1, hxy.2.2.symm⟩
  have habs : ∀ y, Relation.ReflTransGen (Linked simI t2 K) x0 y →
      y ∈ (anchorClosure simI t n st.processed i).1 := by
    intro y hy
    induction hy with
    | refl => exact hx0C
    | @tail b c hpath hedge ih =>
      obtain ⟨hbK, hcK, hor⟩ := hedge
      by_contra hyC
      have hsim : t ≤ simI b c := by
        rcases hor with h | h
        · exact le_trans ht12 h
        · rw [hsym] at h
          exact le_trans ht12 h
      exact absurd (hclosed _ ih _ (hKlt _ hcK) (hKP _ hcK) hyC)
        (not_lt.mpr hsim)
  intro k hk
  have h1 : Relation.ReflTransGen (Linked simI t2 K) x0 a :=
    Relation.ReflTransGen.symmetric hsymm (hconn x0 hx0K)
  exact habs k (h1.trans (hconn k hk))

theorem run_absorbs {t2 : ℚ} {minSize : ℕ} (hsym : ∀ x y, simI x y = simI y x)
    (ht12 : t ≤ t2) {K : List ℕ} {a : ℕ}
    (hconn : ConnFrom simI t2 K a)
    (hKlt : ∀ k ∈ K, k < n) (hKnd : K.Nodup) (hKsize : minSize ≤ K.length)
    {x0 : ℕ} (hx0K : x0 ∈ K) :
    ∀ (l : List ℕ) (st : AnchorState), (∀ i ∈ l, i < n) →
      ((∃ H ∈ st.igroups, ∀ k ∈ K, k ∈ H.1) ∨
        ((∀ k ∈ K, k ∉ st.processed) ∧ x0 ∈ l)) →
      ∃ H ∈ (l.foldl (processAnchor simI t n minSize) st).igroups,
        ∀ k ∈ K, k ∈ H.1 := by
  intro l
  induction l with
  | nil =>
    intro st _ hinv
    rcases hinv with h | h
    · exact h
    · exact absurd h.2 (List.not_mem_nil x0)
  | cons i l ih =>
    intro st hl hinv
    rw [List.foldl_cons]
    rcases hinv with ⟨H, hH, hHK⟩ | ⟨hKP, hx0l⟩
    · exact ih _ (fun j hj => hl j (List.mem_cons_of_mem i hj))
        (Or.inl ⟨H, processAnchor_igroups_mono hH, hHK⟩)
    · have hi : i < n := hl i (List.mem_cons_self i l)
      by_cases hP : i ∈ st.processed
      · rw [processAnchor_skip minSize st i hP]
        apply ih _ (fun j hj => hl j (List.mem_cons_of_mem i hj))
        right
        refine ⟨hKP, ?_⟩
        rcases List.mem_cons.mp hx0l with h | h
        · exact absurd (show x0 ∈ st.processed by rw [h]; exact hP)
            (hKP x0 hx0K)
        · exact h
      · by_cases hhit : ∃ y ∈ K, y ∈ (anchorClosure simI t n st.processed i).1
        · obtain ⟨y, hyK, hyC⟩ := hhit
          have habs := closure_absorbs hsym ht12 hconn hKlt st hKP hi hyK hyC
          have hsize : minSize ≤ (anchorClosure simI t n st.processed i).1.length :=
            le_trans hKsize (length_le_of_subset_nodup hKnd habs)
          rw [processAnchor_emit minSize st i hP hsize]
          apply ih _ (fun j hj => hl j (List.mem_cons_of_mem i hj))
          left
          refine ⟨((anchorClosure simI t n st.processed i).1,
            meanSim (anchorClosure simI t n st.processed i).2), ?_, habs⟩
          exact List.mem_append.mpr (Or.inr (List.mem_singleton.mpr rfl))
        · push_neg at hhit
          apply ih _ (fun j hj => hl j (List.mem_cons_of_mem i hj))
          right
          constructor
          · intro k hk
            by_cases hmin : minSize ≤ (anchorClosure simI t n st.processed i).1.length
            · rw [processAnchor_emit minSize st i hP hmin]
              intro hmem
              rcases Finset.mem_union.mp hmem with h | h
              · exact hKP k hk h
              · exact hhit k hk (List.mem_toFinset.mp h)
            · rw [processAnchor_small minSize st i hP (by omega)]
              exact hKP k hk
          · rcases List.mem_cons.mp hx0l with h | h
            · exfalso
              apply hhit x0 hx0K
              rw [h]
              exact anchorClosure_anchor_mem i
            · exact h

theorem foldl_igroups_conn {minSize : ℕ} :
    ∀ (l : List ℕ) (st : AnchorState), (∀ i ∈ l, i < n) →
      (∀ g ∈ st.igroups, g.1.Nodup ∧ (∀ k ∈ g.1, k < n) ∧
        minSize ≤ g.1.length ∧ ∃ a ∈ g.1, ConnFrom simI t g.1 a) →
      ∀ g ∈ (l.foldl (processAnchor simI t n minSize) st).igroups,
        g.1.Nodup ∧ (∀ k ∈ g.1, k < n) ∧ minSize ≤ g.1.length ∧
          ∃ a ∈ g.1, ConnFrom simI t g.1 a := by
  intro l
  induction l with
  | nil => intro st _ h; exact h
  | cons i l ih =>
    intro st hl hst
    rw [List.foldl_cons]
    apply ih _ (fun j hj => hl j (List.mem_cons_of_mem i hj))
    have hi : i < n := hl i (List.mem_cons_self i l)
    by_cases hP : i ∈ st.processed
    · rw [processAnchor_skip minSize st i hP]; exact hst
    · by_cases hmin : minSize ≤ (anchorClosure simI t n st.processed i).1.length
      · rw [processAnchor_emit minSize st i hP hmin]
        intro g hg
        rcases List.mem_append.mp hg with h | h
        · exact hst g h
        · rw [List.mem_singleton] at h
          subst h
          refine ⟨anchorClosure_nodup i, ?_, hmin,
            i, anchorClosure_anchor_mem i, anchorClosure_conn i⟩
          intro k hk
          exact (@anchorClosure_mem simI t n st.processed i hi hP k hk).1
      · rw [processAnchor_small minSize st i hP (by omega)]; exact hst

end Grouper

namespace Grouper

theorem groupFilesWith_threshold_mono (simS : String → String → ℚ)
    (files : List String) (t1 t2 : ℚ) (minSize : ℕ)
    (hsym : ∀ x y, simS x y = simS y x) (h12 : t1 ≤ t2) :
    ∀ G2 ∈ (groupFilesWith simS files t2 minSize).groups,
      ∃ G1 ∈ (groupFilesWith simS files t1 minSize).groups,
        (∀ f ∈ G2.files, f ∈ G1.files) ∧ G2.files.length ≤ G1.files.length := by
  intro G2 hG2
  set n := files.length with hn
  set simI := fun i j => simS (files.getD i "") (files.getD j "") with hsimI
  have hsymI : ∀ x y, simI x y = simI y x := fun x y => hsym _ _
  set final2 := (List.range n).foldl (processAnchor simI t2 n minSize) ⟨[], ∅⟩
    with hfinal2
  set final1 := (List.range n).foldl (processAnchor simI t1 n minSize) ⟨[], ∅⟩
    with hfinal1
  have hgroups2 : (groupFilesWith simS files t2 minSize).groups =
      (final2.igroups.enum.map (fun p =>
        { id := p.1 + 1, files := p.2.1.map (fun idx => files.getD idx ""),
          similarity := p.2.2 : Group })).insertionSort
        (fun a b => b.similarity ≤ a.similarity) := rfl
  have hgroups1 : (groupFilesWith simS files t1 minSize).groups =
      (final1.igroups.enum.map (fun p =>
        { id := p.1 + 1, files := p.2.1.map (fun idx => files.getD idx ""),
          similarity := p.2.2 : Group })).insertionSort
        (fun a b => b.similarity ≤ a.similarity) := rfl
  rw [hgroups2] at hG2
  obtain ⟨p, hpmem, hpG2⟩ := List.mem_map.mp ((List.perm_insertionSort _ _).subset hG2)
  obtain ⟨idx2, K2⟩ := p
  have hK2mem : K2 ∈ final2.igroups :=
    List.getElem?_mem (List.mk_mem_enum_iff_getElem?.mp hpmem)
  obtain ⟨hnd2, hlt2, hsize2, a, haK, hconn⟩ :=
    foldl_igroups_conn (List.range n) ⟨[], ∅⟩
      (fun j hj => List.mem_range.mp hj)
      (fun g hg => absurd hg (List.not_mem_nil g)) K2 hK2mem
  obtain ⟨H, hHmem, hHK⟩ :=
    run_absorbs (t := t1) hsymI h12 hconn hlt2 hnd2 hsize2 haK
      (List.range n) ⟨[], ∅⟩ (fun j hj => List.mem_range.mp hj)
      (Or.inr ⟨fun k _ => Finset.not_mem_empty k,
        List.mem_range.mpr (hlt2 a haK)⟩)
  obtain ⟨j, hj, hjH⟩ := List.mem_iff_getElem.mp hHmem
  have henum : (j, H) ∈ final1.igroups.enum :=
    List.mk_mem_enum_iff_getElem?.mpr (by rw [List.getElem?_eq_getElem hj, hjH])
  refine ⟨⟨j + 1, H.1.map (fun idx => files.getD idx ""), H.2⟩, ?_, ?_, ?_⟩
  · rw [hgroups1]
    apply (List.perm_insertionSort _ _).mem_iff.mpr
    exact List.mem_map.mpr ⟨(j, H), henum, rfl⟩
  · intro f hf
    rw [← hpG2] at hf
    obtain ⟨k, hkK, hkf⟩ := List.mem_map.mp hf
    exact List.mem_map.mpr ⟨k, hHK k hkK, hkf⟩
  · rw [← hpG2]
    simp only [List.length_map]
    exact length_le_of_subset_nodup hnd2 hHK

end Grouper

/-- **C9.**  Threshold monotonicity of the grouping engine: with the
input list, algorithm, case flag and `min_group_size` fixed, every
group emitted at a higher threshold is contained in (hence no larger
than) a group emitted at any lower threshold. -/
theorem raising_threshold_never_grows_groups (files : List String)
    (th1 th2 : ℕ) (alg : Algorithm) (cs : Bool) (minSize : ℕ)
    (h12 : th1 ≤ th2) :
    ∀ G2 ∈ (Grouper.group_files files th2 alg cs minSize).groups,
      ∃ G1 ∈ (Grouper.group_files files th1 alg cs minSize).groups,
        (∀ f ∈ G2.files, f ∈ G1.files) ∧
          G2.files.length ≤ G1.files.length := by
  apply Grouper.groupFilesWith_threshold_mono
  · exact fun x y => calculate_similarity_comm x y alg cs
  · have h := (Nat.cast_le (α := ℚ)).mpr h12
    linarith

/-- **C9 witness.** -/
theorem raising_threshold_never_grows_groups_witness :
    (40 : ℕ) ≤ 50 ∧
    ∀ G2 ∈ (Grouper.group_files ["report_v1.pdf", "report_v2.pdf"] 50
        .Token false 2).groups,
      ∃ G1 ∈ (Grouper.group_files ["report_v1.pdf", "report_v2.pdf"] 40
          .Token false 2).groups,
        (∀ f ∈ G2.files, f ∈ G1.files) ∧
          G2.files.length ≤ G1.files.length :=
  ⟨by decide, raising_threshold_never_grows_groups
    ["report_v1.pdf", "report_v2.pdf"] 40 50 .Token false 2 (by decide)⟩
